import Mathlib

/-!
# JetPerfHists: flavour- and momentum-binned b-tagging histograms

A shallow embedding of `src/JetPerfHists.cxx` together with the properties
of its momentum binning, its routing by truth flavour and the layout it
writes into the hierarchical store.

Conventions of the embedding

* a `double` is a `Dbl`: not-a-number, the two infinities, or a finite value
  held as a rational (every finite double is one); on it only the
  comparisons, `isinf`, the conversion to `int` and the exact product of a
  table edge with `1e3` are evaluated;
* the arithmetic of the discriminants is kept as an expression tree
  (`FExpr`), which is what the accumulator is handed; `FExpr.eval` gives the
  double such an expression evaluates to in IEEE 754 binary64 arithmetic
  with the default rounding (to nearest, ties to even), as far as the
  standards fix it;
* a `size_t` is a natural number below `2 ^ 64`, an `int` an integer in
  `[-2 ^ 31, 2 ^ 31)`;
* a member function that mutates its object returns a `Res`: the new state,
  or the exception thrown together with the state the object is left in.
-/

namespace JetPerf

/-! ## Numbers -/

/-- Values of the C++ type `double`. -/
inductive Dbl where
  | nan
  | negInf
  | fin (q : ℚ)
  | posInf
  deriving DecidableEq

namespace Dbl

/-- The comparison `a < b` on doubles (false as soon as one side is not a number). -/
def lt : Dbl → Dbl → Bool
  | fin a, fin b => decide (a < b)
  | negInf, fin _ => true
  | negInf, posInf => true
  | fin _, posInf => true
  | _, _ => false

/-- The comparison `a <= b` on doubles. -/
def le : Dbl → Dbl → Bool
  | fin a, fin b => decide (a ≤ b)
  | negInf, fin _ => true
  | negInf, posInf => true
  | negInf, negInf => true
  | fin _, posInf => true
  | posInf, posInf => true
  | _, _ => false

/-- The test `std::isinf`. -/
def isinf : Dbl → Bool
  | negInf => true
  | posInf => true
  | _ => false

/-- The product `pt * 1e3` of the constructor. It is exact for the integers
of the edge table, and an infinity stays an infinity. -/
def mul1e3 : Dbl → Dbl
  | nan => nan
  | negInf => negInf
  | fin q => fin (q * 1000)
  | posInf => posInf

/-- The conversion `int(val)`: truncation toward zero. The result is `none`
where the language leaves the conversion undefined (not a number, an
infinity, or a value outside the range of `int`). -/
def toInt? : Dbl → Option Int
  | fin q =>
    let t := Int.tdiv q.num q.den
    if -2 ^ 31 ≤ t ∧ t < 2 ^ 31 then some t else none
  | _ => none

end Dbl

/-- Number of values of `size_t`. -/
def SIZE_RANGE : Nat := 2 ^ 64

/-- Conversion of an integer to `size_t` (reduction modulo `2 ^ 64`). -/
def toSizeT (i : Int) : Nat := (i % (SIZE_RANGE : Int)).toNat

/-- The conversion `static_cast<int>` of an enumeration value (identity on the range of `int`). -/
def static_cast_int (x : Int) : Int := (x + 2 ^ 31) % 2 ^ 32 - 2 ^ 31

/-! ## Exceptions and results -/

/-- The failures the code can raise. -/
inductive Exn where
  | out_of_range
  | domain_error
  | duplicate_name (name : String)
  | undefined_conversion
  deriving DecidableEq

/-- Outcome of a call on an object of type `σ`: the state after the call, or
the exception that escapes together with the state left behind. -/
inductive Res (σ : Type) where
  | ok (s : σ)
  | thrown (e : Exn) (s : σ)

namespace Res

/-- The state of the object after the call, whether it returned or threw. -/
def state {σ : Type} : Res σ → σ
  | ok s => s
  | thrown _ s => s

/-- The exception that escaped, if any. -/
def error {σ : Type} : Res σ → Option Exn
  | ok _ => none
  | thrown e _ => some e

/-- Sequencing: the next statement runs only when the previous one returned. -/
def bind {σ : Type} (r : Res σ) (f : σ → Res σ) : Res σ :=
  match r with
  | ok s => f s
  | thrown e s => thrown e s

/-- Embed the outcome of a call on a member into the enclosing object. -/
def map {σ τ : Type} (g : σ → τ) : Res σ → Res τ
  | ok s => ok (g s)
  | thrown e s => thrown e (g s)

end Res

/-! ## Jets and discriminants -/

/-- Arithmetic on doubles as handed to the accumulator, kept symbolic. -/
inductive FExpr where
  | val (d : Dbl)
  | div (a b : FExpr)
  | mul (a b : FExpr)
  | sqrt (a : FExpr)
  | log (a : FExpr)
  deriving DecidableEq

/-- The triple of tagging probabilities. -/
structure TagTriple where
  pb : Dbl
  pc : Dbl
  pu : Dbl
  deriving DecidableEq

/-- The jet record. `truth_label` is the underlying value of the `Flavor`
enumeration carried by the jet. -/
structure Jet where
  truth_label : Int
  pt : Dbl
  gaia : TagTriple
  mv1 : Dbl
  mv2c00 : Dbl
  mv2c10 : Dbl
  mv2c20 : Dbl
  deriving DecidableEq

/-- Discriminant `log(pb / pu)`. -/
def btagAntiU (tr : TagTriple) : FExpr := .log (.div (.val tr.pb) (.val tr.pu))

/-- Discriminant `log(pb / pc)`. -/
def btagAntiC (tr : TagTriple) : FExpr := .log (.div (.val tr.pb) (.val tr.pc))

/-- Discriminant `log(pb / sqrt(pc * pu))`. -/
def gr1 (tr : TagTriple) : FExpr :=
  .log (.div (.val tr.pb) (.sqrt (.mul (.val tr.pc) (.val tr.pu))))

/-- The underlying values of the enumerators of `Flavor`; the declaration of
the enumeration is a parameter of the development. -/
structure FlavorCode where
  B : Int
  C : Int
  U : Int
  T : Int
  deriving DecidableEq

/-- The enumerators are pairwise different and lie in `[0, 4)`. -/
def FlavorCode.Valid (fc : FlavorCode) : Prop :=
  (0 ≤ fc.B ∧ fc.B < 4) ∧ (0 ≤ fc.C ∧ fc.C < 4) ∧ (0 ≤ fc.U ∧ fc.U < 4) ∧ (0 ≤ fc.T ∧ fc.T < 4) ∧
  fc.B ≠ fc.C ∧ fc.B ≠ fc.U ∧ fc.B ≠ fc.T ∧ fc.C ≠ fc.U ∧ fc.C ≠ fc.T ∧ fc.U ≠ fc.T

instance (fc : FlavorCode) : Decidable fc.Valid := by
  unfold FlavorCode.Valid
  infer_instance

/-- The helper `flavorString`: the name of a flavour, `domain_error` for a
value that is no enumerator. -/
def flavorString (fc : FlavorCode) (flavor : Int) : Except Exn String :=
  if flavor = fc.U then .ok "U"
  else if flavor = fc.B then .ok "B"
  else if flavor = fc.C then .ok "C"
  else if flavor = fc.T then .ok "T"
  else .error .domain_error

/-- The helper `binString`: the label of an edge, `"INF"` for an infinity,
otherwise the edge truncated to `int` and divided by 1000. -/
def binString (val : Dbl) : Option String :=
  if val.isinf then some "INF"
  else (val.toInt?).map fun n => toString (Int.tdiv n 1000)

/-! ## The accumulator and the store -/

/-- The two ranges a histogram is constructed with: `(N_BINS, 0.0, 1.0)` and
`(N_BINS, GAIA_LOW, GAIA_HIGH)`. -/
inductive HistRange where
  | unit
  | gaia
  deriving DecidableEq

/-- Modelled from the spec: the accumulator `Histogram` (its header and
implementation are not in the repository slice) is the record of the calls
`fill(value, weight)` it has received, in order; a weight is a finite
double. -/
structure Histogram where
  range : HistRange
  fills : List (FExpr × ℚ)
  deriving DecidableEq

/-- Modelled from the spec: `Histogram::fill(value, weight)` adds the weight
at the value. -/
def Histogram.fill (h : Histogram) (value : FExpr) (weight : ℚ) : Histogram :=
  { h with fills := h.fills ++ [(value, weight)] }

/-- Modelled from the spec: a node of the hierarchical store, a dataset or
a group with its named children in creation order. -/
inductive Node where
  | dataset (h : Histogram)
  | group (kids : List (String × Node))

/-- The children of a group (what a `CommonFG` handle gives access to). -/
abbrev Group := List (String × Node)

/-- Whether a group already has a child of that name. -/
def Group.hasChild (fg : Group) (name : String) : Bool :=
  fg.any fun kid => kid.1 == name

/-- Modelled from the spec: `fg.createGroup(name)` followed by the
statements that write through the returned handle. The names of siblings
are unique, so creation fails on a name already present; otherwise the new
group starts empty and is filled by `body`. -/
def Group.createGroup (fg : Group) (name : String) (body : Group → Res Group) : Res Group :=
  if fg.hasChild name then .thrown (.duplicate_name name) fg
  else (body []).map fun kids => fg ++ [(name, Node.group kids)]

/-- Modelled from the spec: `Histogram::write_to(fg, name)` stores the
histogram as a dataset named `name` under `fg`. -/
def Histogram.write_to (h : Histogram) (fg : Group) (name : String) : Res Group :=
  if fg.hasChild name then .thrown (.duplicate_name name) fg
  else .ok (fg ++ [(name, Node.dataset h)])

/-- The child of that name, if any. -/
def Group.child (fg : Group) (name : String) : Option Node :=
  (fg.find? fun kid => kid.1 == name).map Prod.snd

/-- The node reached from a group along a path of names. -/
def Group.find : Group → List String → Option Node
  | fg, [] => some (.group fg)
  | fg, [name] => fg.child name
  | fg, name :: rest =>
    match fg.child name with
    | some (.group kids) => Group.find kids rest
    | _ => none

/-- The names of the children, in creation order. -/
def Group.names (fg : Group) : List String := fg.map Prod.fst

/-! ## The discriminant hub `BtagHists` -/

/-- The seven histograms of a hub. -/
structure BtagHists where
  m_mv1 : Histogram
  m_gaia_anti_light : Histogram
  m_gaia_anti_charm : Histogram
  m_gaia_gr1 : Histogram
  m_mv2c00 : Histogram
  m_mv2c10 : Histogram
  m_mv2c20 : Histogram
  deriving DecidableEq

/-- The constructor `BtagHists::BtagHists`: seven empty histograms. -/
def BtagHists.new : BtagHists where
  m_mv1 := ⟨.unit, []⟩
  m_gaia_anti_light := ⟨.gaia, []⟩
  m_gaia_anti_charm := ⟨.gaia, []⟩
  m_gaia_gr1 := ⟨.gaia, []⟩
  m_mv2c00 := ⟨.unit, []⟩
  m_mv2c10 := ⟨.unit, []⟩
  m_mv2c20 := ⟨.unit, []⟩

/-- The member `BtagHists::fill`. -/
def BtagHists.fill (b : BtagHists) (jet : Jet) (weight : ℚ) : BtagHists where
  m_mv1 := b.m_mv1.fill (.val jet.mv1) weight
  m_gaia_anti_light := b.m_gaia_anti_light.fill (btagAntiU jet.gaia) weight
  m_gaia_anti_charm := b.m_gaia_anti_charm.fill (btagAntiC jet.gaia) weight
  m_gaia_gr1 := b.m_gaia_gr1.fill (gr1 jet.gaia) weight
  m_mv2c00 := b.m_mv2c00.fill (.val jet.mv2c00) weight
  m_mv2c10 := b.m_mv2c10.fill (.val jet.mv2c10) weight
  m_mv2c20 := b.m_mv2c20.fill (.val jet.mv2c20) weight

/-- The member `BtagHists::writeTo`. -/
def BtagHists.writeTo (b : BtagHists) (fg : Group) : Res Group :=
  (b.m_mv1.write_to fg "mv1").bind fun fg =>
  (b.m_gaia_anti_light.write_to fg "gaiaAntiU").bind fun fg =>
  (b.m_gaia_anti_charm.write_to fg "gaiaAntiC").bind fun fg =>
  (b.m_gaia_gr1.write_to fg "gaiaGr1").bind fun fg =>
  (b.m_mv2c00.write_to fg "mv2c00").bind fun fg =>
  (b.m_mv2c10.write_to fg "mv2c10").bind fun fg =>
  b.m_mv2c20.write_to fg "mv2c20"

/-- Total weight a hub has received (every call of `fill` hands the same
weight to each of the seven histograms; it is read off `m_mv1`). -/
def BtagHists.weight (b : BtagHists) : ℚ := (b.m_mv1.fills.map Prod.snd).sum

/-! ## The momentum-binned aggregator `FlavoredHists` -/

/-- The assignment `m[key] = value` on a `std::map<double, size_t>`, held as
the list of its entries in ascending order of the keys. -/
def mapAssign : List (Dbl × Nat) → Dbl → Nat → List (Dbl × Nat)
  | [], key, value => [(key, value)]
  | (k, v) :: rest, key, value =>
    if key.lt k then (key, value) :: (k, v) :: rest
    else if k.lt key then (k, v) :: mapAssign rest key value
    else (k, value) :: rest

/-- The member `upper_bound` of the map: the first entry whose key is
strictly greater than `key`, `none` for the past-the-end iterator. -/
def upper_bound (m : List (Dbl × Nat)) (key : Dbl) : Option (Dbl × Nat) :=
  m.find? fun entry => key.lt entry.1

/-- The edges of the momentum bins in GeV, as listed in the constructor. -/
def pt_bins_gev : List Dbl :=
  [.fin 0, .fin 20, .fin 30, .fin 40, .fin 50, .fin 60, .fin 75, .fin 90, .fin 110,
   .fin 150, .fin 200, .fin 600, .posInf]

/-- The aggregator: the all-momenta hub, the edge table and the hubs of the
momentum bins. -/
structure FlavoredHists where
  m_btag : BtagHists
  m_pt_bins : List (Dbl × Nat)
  m_pt_btag : List BtagHists
  deriving DecidableEq

/-- The loop of the constructor: each edge, scaled by `1e3`, is mapped to
the running `size_t` counter, which is then incremented. -/
def fillTable : List Dbl → List (Dbl × Nat) → Nat → List (Dbl × Nat)
  | [], m, _ => m
  | pt :: rest, m, bin => fillTable rest (mapAssign m pt.mul1e3 bin) ((bin + 1) % SIZE_RANGE)

/-- The constructor `FlavoredHists::FlavoredHists`: twelve hubs, and the
table filled with the counter starting from `size_t bin = -1`. -/
def FlavoredHists.new : FlavoredHists where
  m_btag := BtagHists.new
  m_pt_bins := fillTable pt_bins_gev [] (toSizeT (-1))
  m_pt_btag := List.replicate 12 BtagHists.new

/-- The member `FlavoredHists::fill`. -/
def FlavoredHists.fill (h : FlavoredHists) (jet : Jet) (weight : ℚ) : Res FlavoredHists :=
  let h1 : FlavoredHists := { h with m_btag := h.m_btag.fill jet weight }
  match upper_bound h1.m_pt_bins jet.pt with
  | none => .ok h1
  | some pt_itr =>
    match h1.m_pt_btag[pt_itr.2]? with
    | none => .thrown .out_of_range h1
    | some hub => .ok { h1 with m_pt_btag := h1.m_pt_btag.set pt_itr.2 (hub.fill jet weight) }

/-- The guard of `FlavoredHists::writeTo` on a table entry: the index is
`>= 0` and below the size of the edge table. -/
def FlavoredHists.guard (h : FlavoredHists) (pt_itr : Dbl × Nat) : Bool :=
  decide (0 ≤ pt_itr.2) && decide (pt_itr.2 < h.m_pt_bins.length)

/-- The loop of `FlavoredHists::writeTo` over the entries of the table,
carrying the label of the previous edge in `last_bin`. -/
def FlavoredHists.writeBins (h : FlavoredHists) :
    List (Dbl × Nat) → String → Group → Res Group
  | [], _, pt_bins => .ok pt_bins
  | pt_itr :: rest, last_bin, pt_bins =>
    match binString pt_itr.1 with
    | none => .thrown .undefined_conversion pt_bins
    | some bin_high =>
      if h.guard pt_itr then
        (pt_bins.createGroup (last_bin ++ "-" ++ bin_high) fun this_bin =>
          match h.m_pt_btag[pt_itr.2]? with
          | none => .thrown .out_of_range this_bin
          | some pt_hist => pt_hist.writeTo this_bin).bind
          fun pt_bins => FlavoredHists.writeBins h rest bin_high pt_bins
      else FlavoredHists.writeBins h rest bin_high pt_bins

/-- The member `FlavoredHists::writeTo`. -/
def FlavoredHists.writeTo (h : FlavoredHists) (fg : Group) : Res Group :=
  fg.createGroup "btag" fun btag_group =>
    (btag_group.createGroup "all" fun all_pt => h.m_btag.writeTo all_pt).bind
      fun btag_group =>
        btag_group.createGroup "ptBins" fun pt_bins =>
          FlavoredHists.writeBins h h.m_pt_bins "NONE" pt_bins

/-! ## The flavour router `JetPerfHists` -/

/-- The top level: one aggregator per flavour. -/
structure JetPerfHists where
  m_flavors : List FlavoredHists
  deriving DecidableEq

/-- The constructor `JetPerfHists::JetPerfHists`: four aggregators. -/
def JetPerfHists.new : JetPerfHists where
  m_flavors := List.replicate 4 FlavoredHists.new

/-- The member `JetPerfHists::fill`: bounds-checked access at the integer
value of the truth label, then the fill of that aggregator. -/
def JetPerfHists.fill (J : JetPerfHists) (jet : Jet) (weight : ℚ) : Res JetPerfHists :=
  let index := toSizeT (static_cast_int jet.truth_label)
  match J.m_flavors[index]? with
  | none => .thrown .out_of_range J
  | some agg => (agg.fill jet weight).map fun a => { m_flavors := J.m_flavors.set index a }

/-- The loop of `JetPerfHists::writeTo` over the listed flavours. -/
def JetPerfHists.writeFlavors (fc : FlavorCode) (J : JetPerfHists) :
    List Int → Group → Res Group
  | [], fg => .ok fg
  | flavor :: rest, fg =>
    match flavorString fc flavor with
    | .error e => .thrown e fg
    | .ok name =>
      (fg.createGroup name fun flav_group =>
        match J.m_flavors[toSizeT flavor]? with
        | none => .thrown .out_of_range flav_group
        | some agg => agg.writeTo flav_group).bind
        fun fg => JetPerfHists.writeFlavors fc J rest fg

/-- The member `JetPerfHists::writeTo`. -/
def JetPerfHists.writeTo (fc : FlavorCode) (J : JetPerfHists) (fg : Group) : Res Group :=
  JetPerfHists.writeFlavors fc J [fc.B, fc.C, fc.U, fc.T] fg

/-! ## Notions used to state the properties -/

/-- The edge table in evaluated form (equal to the table the constructor
builds, see `new_table`). -/
def edgeTable : List (Dbl × Nat) :=
  [(.fin 0, 18446744073709551615), (.fin 20000, 0), (.fin 30000, 1), (.fin 40000, 2),
   (.fin 50000, 3), (.fin 60000, 4), (.fin 75000, 5), (.fin 90000, 6), (.fin 110000, 7),
   (.fin 150000, 8), (.fin 200000, 9), (.fin 600000, 10), (.posInf, 11)]

/-- The edges of the table in ascending order: the keys of `m_pt_bins`. -/
def edges : List Dbl := FlavoredHists.new.m_pt_bins.map Prod.fst

/-- The content a hub leaves in an empty group. -/
def BtagHists.datasets (b : BtagHists) : Group :=
  [("mv1", .dataset b.m_mv1), ("gaiaAntiU", .dataset b.m_gaia_anti_light),
   ("gaiaAntiC", .dataset b.m_gaia_anti_charm), ("gaiaGr1", .dataset b.m_gaia_gr1),
   ("mv2c00", .dataset b.m_mv2c00), ("mv2c10", .dataset b.m_mv2c10),
   ("mv2c20", .dataset b.m_mv2c20)]

/-- The names of the groups found under `ptBins`. -/
def binNames : List String :=
  ["0-20", "20-30", "30-40", "40-50", "50-60", "60-75", "75-90", "90-110", "110-150",
   "150-200", "200-600", "600-INF"]

/-- Apply `f` to the element at position `i` and to no other. -/
def modifyAt {α : Type} (f : α → α) : Nat → List α → List α
  | _, [] => []
  | 0, x :: xs => f x :: xs
  | i + 1, x :: xs => x :: modifyAt f i xs

/-- States of an aggregator that construction and fills can lead to: the
table of the constructor and twelve hubs. -/
def FlavoredHists.WellFormed (h : FlavoredHists) : Prop :=
  h.m_pt_bins = FlavoredHists.new.m_pt_bins ∧ h.m_pt_btag.length = 12

/-- The aggregator after the jet was added to the all-momenta hub and to
the hub of bin `i`, every other hub being left as it was. -/
def FlavoredHists.filledAt (h : FlavoredHists) (i : Nat) (jet : Jet) (weight : ℚ) :
    FlavoredHists where
  m_btag := h.m_btag.fill jet weight
  m_pt_bins := h.m_pt_bins
  m_pt_btag := modifyAt (fun hub => hub.fill jet weight) i h.m_pt_btag

/-- The aggregator after the jet was added to the all-momenta hub only. -/
def FlavoredHists.filledAll (h : FlavoredHists) (jet : Jet) (weight : ℚ) : FlavoredHists :=
  { h with m_btag := h.m_btag.fill jet weight }

/-- What `writeTo` leaves in an empty store. -/
def FlavoredHists.written (h : FlavoredHists) : Group := (h.writeTo []).state

/-- The hub of bin `i` is the one `writeTo` stores in the group `name` of
`ptBins`: the call succeeds and that group holds what the hub writes. -/
def FlavoredHists.WrittenUnder (g : FlavoredHists) (name : String) (i : Nat) : Prop :=
  (g.writeTo []).error = none ∧ ∃ hub, g.m_pt_btag[i]? = some hub ∧
    (hub.writeTo []).error = none ∧
    Group.find g.written ["btag", "ptBins", name] = some (.group (hub.writeTo []).state)

/-- The state after a sequence of fills, each taken with the state the
previous one left, whether it returned or threw. -/
def FlavoredHists.fills (h : FlavoredHists) (batch : List (Jet × ℚ)) : FlavoredHists :=
  batch.foldl (fun s x => (s.fill x.1 x.2).state) h

/-- The names of the children of the group found along `path`. -/
def Group.namesAt (s : Group) (path : List String) : List String :=
  match Group.find s path with
  | some (.group kids) => Group.names kids
  | _ => []

/-- The label before the dash in the name of a momentum-bin group. -/
def lowerLabel (name : String) : String := ⟨name.data.takeWhile fun c => c != '-'⟩

/-- The label after the dash in the name of a momentum-bin group. -/
def upperLabel (name : String) : String := ⟨(name.data.dropWhile fun c => c != '-').drop 1⟩

/-- A jet with the given truth label and momentum, fixed tagger scores. -/
def sampleJet (label : Int) (pt : Dbl) : Jet where
  truth_label := label
  pt := pt
  gaia := ⟨.fin (1 / 2), .fin (1 / 4), .fin (1 / 4)⟩
  mv1 := .fin (9 / 10)
  mv2c00 := .fin (1 / 2)
  mv2c10 := .fin (1 / 2)
  mv2c20 := .fin (1 / 2)

/-- The labels of the thirteen table edges, in ascending order. -/
def edgeLabels : List String :=
  ["0", "20", "30", "40", "50", "60", "75", "90", "110", "150", "200", "600", "INF"]

/-- States of the router that construction and fills can lead to: four
aggregators, each with the table of the constructor and twelve hubs. -/
def JetPerfHists.WellFormed (J : JetPerfHists) : Prop :=
  J.m_flavors.length = 4 ∧ ∀ a ∈ J.m_flavors, a.WellFormed

/-- What `JetPerfHists::writeTo` leaves in an empty store. -/
def JetPerfHists.written (fc : FlavorCode) (J : JetPerfHists) : Group :=
  (J.writeTo fc []).state

/-- The fill loop of the caller over a batch of jets with their weights; an
exception ends the loop. -/
def JetPerfHists.fillAll (J : JetPerfHists) : List (Jet × ℚ) → Res JetPerfHists
  | [] => .ok J
  | x :: rest => (J.fill x.1 x.2).bind fun J1 => JetPerfHists.fillAll J1 rest

/-- Total weight received by the all-momenta hubs of the flavour aggregators. -/
def JetPerfHists.allWeight (J : JetPerfHists) : ℚ :=
  (J.m_flavors.map fun a => a.m_btag.weight).sum

/-- The numbering `B = 0, C = 1, U = 2, T = 3` of the flavours. -/
def sampleCode : FlavorCode := ⟨0, 1, 2, 3⟩

/-- Jet A of the end-to-end scenario, with the given truth label. -/
def scenarioJetA (label : Int) : Jet where
  truth_label := label
  pt := .fin 25000
  gaia := ⟨.fin (8 / 10), .fin (1 / 10), .fin (1 / 10)⟩
  mv1 := .fin (9 / 10)
  mv2c00 := .fin (1 / 2)
  mv2c10 := .fin (1 / 2)
  mv2c20 := .fin (1 / 2)

/-- Jet B of the end-to-end scenario, with the given truth label. -/
def scenarioJetB (label : Int) : Jet where
  truth_label := label
  pt := .fin 500000
  gaia := ⟨.fin (1 / 10), .fin (1 / 10), .fin (8 / 10)⟩
  mv1 := .fin (2 / 10)
  mv2c00 := .fin (1 / 2)
  mv2c10 := .fin (1 / 2)
  mv2c20 := .fin (1 / 2)

/-- The store of the end-to-end scenario: a fresh router, the fill of jet A
with weight 1, the fill of jet B with weight 2, then one `writeTo` into an
empty store. -/
def scenarioStore (fc : FlavorCode) (jA jB : Jet) : Group :=
  JetPerfHists.written fc ((JetPerfHists.new.fill jA 1).state.fill jB 2).state

/-- The names of the seven datasets of a hub, in the order they are written. -/
def datasetNames : List String :=
  ["mv1", "gaiaAntiU", "gaiaAntiC", "gaiaGr1", "mv2c00", "mv2c10", "mv2c20"]

/-- The dataset stored under `name` in a group, if any. -/
def Group.dataset (fg : Group) (name : String) : Option Histogram :=
  match fg.child name with
  | some (.dataset h) => some h
  | _ => none

/-- The table edges in GeV that are finite. -/
def finite_edges_gev : List Nat := [0, 20, 30, 40, 50, 60, 75, 90, 110, 150, 200, 600]

/-- The fill loop over a batch of jets on one aggregator; an exception ends
the loop. -/
def FlavoredHists.fillAll (h : FlavoredHists) : List (Jet × ℚ) → Res FlavoredHists
  | [] => .ok h
  | x :: rest => (h.fill x.1 x.2).bind fun h1 => FlavoredHists.fillAll h1 rest

/-- Total weight received by the twelve per-bin hubs. -/
def FlavoredHists.binWeight (h : FlavoredHists) : ℚ :=
  (h.m_pt_btag.map fun b => b.weight).sum

mutual
/-- No group of the tree has two children of the same name. -/
def Node.distinctNames : Node → Bool
  | .dataset _ => true
  | .group kids => decide (kids.map Prod.fst).Nodup && Group.distinctBelow kids
/-- Every child satisfies `Node.distinctNames`. -/
def Group.distinctBelow : List (String × Node) → Bool
  | [] => true
  | kid :: rest => Node.distinctNames kid.2 && Group.distinctBelow rest
end

/-! ## Double arithmetic of the discriminants -/

/-- A binary64 value as the arithmetic sees it: not-a-number, an infinity
with its sign, a zero with its sign, or a nonzero finite value given by its
sign (`neg`) and its magnitude. -/
inductive F64 where
  | nan
  | inf (neg : Bool)
  | zero (neg : Bool)
  | fin (neg : Bool) (mag : ℚ)
  deriving DecidableEq

namespace F64

/-- Half of the smallest positive double, `2 ^ (-1075)`: an exact result of
at most this magnitude rounds to zero. -/
def tiny : ℚ := 1 / 2 ^ 1075

/-- The overflow threshold `2 ^ 1024 - 2 ^ 970`: an exact result of at least
this magnitude rounds to an infinity. -/
def huge : ℚ := 2 ^ 1024 - 2 ^ 970

/-- The exponent of the spacing of the doubles around the magnitude `m`:
`max (floor (log2 m), -1022) - 52`. -/
def quantumExp (m : ℚ) : ℤ := max (Int.log 2 m) (-1022) - 52

/-- Rounding to the nearest integer, a tie going to the even one. -/
def roundHalfEven (x : ℚ) : ℤ :=
  if x - ⌊x⌋ < 1 / 2 then ⌊x⌋
  else if 1 / 2 < x - ⌊x⌋ then ⌊x⌋ + 1
  else if ⌊x⌋ % 2 = 0 then ⌊x⌋ else ⌊x⌋ + 1

/-- The double nearest to the magnitude `m`, ties to even. -/
def nearest (m : ℚ) : ℚ := roundHalfEven (m / 2 ^ quantumExp m) * 2 ^ quantumExp m

/-- The rounding of IEEE 754 (to nearest, ties to even) of a nonzero exact
result of sign `neg` and magnitude `m`. -/
def round (neg : Bool) (m : ℚ) : F64 :=
  if m ≤ tiny then zero neg
  else if huge ≤ m then inf neg
  else fin neg (nearest m)

/-- The product `a * b` of two doubles. -/
def mul : F64 → F64 → F64
  | nan, _ => nan
  | _, nan => nan
  | inf _, zero _ => nan
  | zero _, inf _ => nan
  | inf a, inf b => inf (a != b)
  | inf a, fin b _ => inf (a != b)
  | fin a _, inf b => inf (a != b)
  | zero a, zero b => zero (a != b)
  | zero a, fin b _ => zero (a != b)
  | fin a _, zero b => zero (a != b)
  | fin a x, fin b y => round (a != b) (x * y)

/-- The quotient `a / b` of two doubles. -/
def div : F64 → F64 → F64
  | nan, _ => nan
  | _, nan => nan
  | inf _, inf _ => nan
  | zero _, zero _ => nan
  | inf a, zero b => inf (a != b)
  | inf a, fin b _ => inf (a != b)
  | zero a, inf b => zero (a != b)
  | zero a, fin b _ => zero (a != b)
  | fin a _, inf b => zero (a != b)
  | fin a _, zero b => inf (a != b)
  | fin a x, fin b y => round (a != b) (x / y)

/-- The double `v` is finite and, as a real number, equal to `x`. -/
def IsReal (v : F64) (x : ℝ) : Prop :=
  match v with
  | zero _ => x = 0
  | fin neg m => x = if neg then -(m : ℝ) else (m : ℝ)
  | _ => False

end F64

/-- What is known of the double an expression evaluates to: a value fixed
by IEEE 754 and Annex F of the C standard (`exact`), a finite double that is
not determined here (`someFinite`: the correctly rounded square root, or the
logarithm as rounded by the C library, of a positive finite double; a zero
of either sign), or nothing (`unknown`). -/
inductive FRes where
  | exact (v : F64)
  | someFinite
  | unknown
  deriving DecidableEq

namespace FRes

/-- The doubles an outcome stands for. -/
def Admits : FRes → F64 → Prop
  | exact v, g => g = v
  | someFinite, .zero _ => True
  | someFinite, .fin _ _ => True
  | someFinite, _ => False
  | unknown, _ => True

/-- The operation `a * b`. -/
def mul : FRes → FRes → FRes
  | exact a, exact b => exact (F64.mul a b)
  | _, _ => unknown

/-- The operation `a / b`. -/
def div : FRes → FRes → FRes
  | exact a, exact b => exact (F64.div a b)
  | _, _ => unknown

/-- The library function `sqrt`: `sqrt(±0) = ±0`, `sqrt(+inf) = +inf`, not a
number below zero, a finite double on a positive finite argument. -/
def sqrt : FRes → FRes
  | exact .nan => exact .nan
  | exact (.inf false) => exact (.inf false)
  | exact (.inf true) => exact .nan
  | exact (.zero neg) => exact (.zero neg)
  | exact (.fin true _) => exact .nan
  | exact (.fin false _) => someFinite
  | _ => unknown

/-- The library function `log`: `log(±0) = -inf`, `log(+inf) = +inf`, not a
number below zero, a finite double on a positive finite argument. -/
def log : FRes → FRes
  | exact .nan => exact .nan
  | exact (.inf false) => exact (.inf false)
  | exact (.inf true) => exact .nan
  | exact (.zero _) => exact (.inf true)
  | exact (.fin true _) => exact .nan
  | exact (.fin false _) => someFinite
  | _ => unknown

end FRes

/-- The double held in a field of the jet, as the arithmetic sees it. `Dbl`
does not keep the sign of a zero, so a zero field is only known to be
finite. -/
def Dbl.toRes : Dbl → FRes
  | .nan => .exact .nan
  | .negInf => .exact (.inf true)
  | .posInf => .exact (.inf false)
  | .fin q => if q = 0 then .someFinite else .exact (.fin (decide (q < 0)) |q|)

/-- The double an expression of the discriminants evaluates to. -/
def FExpr.eval : FExpr → FRes
  | .val d => d.toRes
  | .div a b => FRes.div (FExpr.eval a) (FExpr.eval b)
  | .mul a b => FRes.mul (FExpr.eval a) (FExpr.eval b)
  | .sqrt a => FRes.sqrt (FExpr.eval a)
  | .log a => FRes.log (FExpr.eval a)

/-- Positive probabilities whose product `pc * pu` underflows: `pb = 1` and
`pc = pu = 2 ^ (-565)` (about `8.3e-171`), each of them a double. -/
def underflowTriple : TagTriple := ⟨.fin 1, .fin (1 / 2 ^ 565), .fin (1 / 2 ^ 565)⟩

/-- The value of an expression in exact real arithmetic, `ρ` giving the real
number at each leaf: the quantity the formulas of the spec speak of. It is
not the double the code computes, which is `FExpr.eval`. -/
noncomputable def FExpr.exactReal (ρ : Dbl → ℝ) : FExpr → ℝ
  | .val d => ρ d
  | .div a b => FExpr.exactReal ρ a / FExpr.exactReal ρ b
  | .mul a b => FExpr.exactReal ρ a * FExpr.exactReal ρ b
  | .sqrt a => Real.sqrt (FExpr.exactReal ρ a)
  | .log a => Real.log (FExpr.exactReal ρ a)

/-- The real number a finite double is (0 for the other values). -/
noncomputable def Dbl.toReal : Dbl → ℝ
  | .fin q => (q : ℝ)
  | _ => 0
/-! ## The edge table -/

theorem new_table : FlavoredHists.new.m_pt_bins = edgeTable := by
  have h : toSizeT (-1) = 18446744073709551615 := by decide
  norm_num [FlavoredHists.new, fillTable, pt_bins_gev, mapAssign, Dbl.mul1e3, Dbl.lt, h,
    SIZE_RANGE, edgeTable]

theorem edges_eq : edges = [.fin 0, .fin 20000, .fin 30000, .fin 40000, .fin 50000,
    .fin 60000, .fin 75000, .fin 90000, .fin 110000, .fin 150000, .fin 200000, .fin 600000,
    .posInf] := by
  rw [edges, new_table]; rfl

theorem find_step {α : Type} (p : α → Bool) (x : α) (xs : List α) :
    (x :: xs).find? p = if p x then some x else xs.find? p := by
  cases h : p x <;> simp [List.find?, h]

theorem upper_bound_table (q : ℚ) : upper_bound edgeTable (.fin q) =
    if q < 0 then some (.fin 0, 18446744073709551615)
    else if q < 20000 then some (.fin 20000, 0)
    else if q < 30000 then some (.fin 30000, 1)
    else if q < 40000 then some (.fin 40000, 2)
    else if q < 50000 then some (.fin 50000, 3)
    else if q < 60000 then some (.fin 60000, 4)
    else if q < 75000 then some (.fin 75000, 5)
    else if q < 90000 then some (.fin 90000, 6)
    else if q < 110000 then some (.fin 110000, 7)
    else if q < 150000 then some (.fin 150000, 8)
    else if q < 200000 then some (.fin 200000, 9)
    else if q < 600000 then some (.fin 600000, 10)
    else some (.posInf, 11) := by
  simp only [upper_bound, edgeTable, find_step, Dbl.lt, decide_eq_true_eq, if_true]

theorem length_twelve {α : Type} (l : List α) (h : l.length = 12) :
    ∃ b0 b1 b2 b3 b4 b5 b6 b7 b8 b9 b10 b11, l = [b0, b1, b2, b3, b4, b5, b6, b7, b8, b9, b10, b11] := by
  match l, h with
  | [b0, b1, b2, b3, b4, b5, b6, b7, b8, b9, b10, b11], _ =>
    exact ⟨b0, b1, b2, b3, b4, b5, b6, b7, b8, b9, b10, b11, rfl⟩

theorem set_eq_modifyAt {α : Type} (f : α → α) (l : List α) (i : Nat) (x : α)
    (h : l[i]? = some x) : l.set i (f x) = modifyAt f i l := by
  induction l generalizing i with
  | nil => simp at h
  | cons y ys ih =>
    cases i with
    | zero =>
      simp at h
      simp [modifyAt, h]
    | succ n =>
      simp at h
      simp [modifyAt, ih n h]

theorem length_modifyAt {α : Type} (f : α → α) (i : Nat) (l : List α) :
    (modifyAt f i l).length = l.length := by
  induction l generalizing i with
  | nil => simp [modifyAt]
  | cons y ys ih =>
    cases i with
    | zero => simp [modifyAt]
    | succ n => simp [modifyAt, ih n]

/-! ## `FlavoredHists::fill` -/

theorem fill_of_entry (h : FlavoredHists) (hwf : h.WellFormed) (jet : Jet) (w : ℚ)
    (e : Dbl) (i : Nat) (hi : i < 12) (hub : upper_bound edgeTable jet.pt = some (e, i)) :
    h.fill jet w = .ok (h.filledAt i jet w) := by
  obtain ⟨htab, hlen⟩ := hwf
  rw [new_table] at htab
  have hget : ∃ x, h.m_pt_btag[i]? = some x := by
    have : i < h.m_pt_btag.length := by omega
    exact ⟨h.m_pt_btag[i], by simp [this]⟩
  obtain ⟨x, hx⟩ := hget
  simp only [FlavoredHists.fill, htab, hub, hx, FlavoredHists.filledAt]
  rw [set_eq_modifyAt (fun hub => hub.fill jet w) _ _ _ hx]

theorem fill_of_wrapped (h : FlavoredHists) (hwf : h.WellFormed) (jet : Jet) (w : ℚ)
    (e : Dbl) (hub : upper_bound edgeTable jet.pt = some (e, 18446744073709551615)) :
    h.fill jet w = .thrown .out_of_range (h.filledAll jet w) := by
  obtain ⟨htab, hlen⟩ := hwf
  rw [new_table] at htab
  have hx : h.m_pt_btag[18446744073709551615]? = none := by
    simp [hlen]
  simp only [FlavoredHists.fill, htab, hub, hx, FlavoredHists.filledAll]

theorem fill_of_end (h : FlavoredHists) (hwf : h.WellFormed) (jet : Jet) (w : ℚ)
    (hub : upper_bound edgeTable jet.pt = none) :
    h.fill jet w = .ok (h.filledAll jet w) := by
  obtain ⟨htab, hlen⟩ := hwf
  rw [new_table] at htab
  simp only [FlavoredHists.fill, htab, hub, FlavoredHists.filledAll]

theorem new_wellFormed : FlavoredHists.new.WellFormed := by
  exact ⟨rfl, by simp [FlavoredHists.new]⟩

theorem lt_fin_fin (a b : ℚ) : (Dbl.fin a).lt (.fin b) = decide (a < b) := rfl

theorem le_fin_fin (a b : ℚ) : (Dbl.fin a).le (.fin b) = decide (a ≤ b) := rfl

theorem lt_false_of_le (x lo k : Dbl) (h1 : x.le lo = true) (h2 : lo.le k = true) :
    k.lt x = false := by
  cases x <;> cases lo <;> cases k <;> simp_all [Dbl.le, Dbl.lt]
  exact le_trans h1 h2

theorem upper_bound_window (pre post : List (Dbl × Nat)) (e : Dbl × Nat) (k : Dbl)
    (hpre : ∀ x ∈ pre, k.lt x.1 = false) (he : k.lt e.1 = true) :
    upper_bound (pre ++ e :: post) k = some e := by
  induction pre with
  | nil => simp [upper_bound, List.find?, he]
  | cons x xs ih =>
    have hx : k.lt x.1 = false := hpre x (by simp)
    have hxs : ∀ y ∈ xs, k.lt y.1 = false := fun y hy => hpre y (by simp [hy])
    have := ih hxs
    simp only [upper_bound] at this
    simp [upper_bound, List.find?, hx, this]

theorem table_split (i : Nat) (lo hi : Dbl) (hi12 : i < 12) (hlo : edges[i]? = some lo)
    (hhi : edges[i + 1]? = some hi) :
    edgeTable = edgeTable.take (i + 1) ++ (hi, i) :: edgeTable.drop (i + 2) ∧
      ∀ x ∈ edgeTable.take (i + 1), x.1.le lo = true := by
  rw [edges_eq] at hlo hhi
  interval_cases i <;> simp only [List.getElem?_cons_succ, List.getElem?_cons_zero,
      Option.some.injEq] at hlo hhi <;> subst hlo <;> subst hhi <;>
    exact ⟨rfl, by norm_num [edgeTable, Dbl.le]⟩

theorem entry_of_bin (i : Nat) (lo hi : Dbl) (hi12 : i < 12) (hlo : edges[i]? = some lo)
    (hhi : edges[i + 1]? = some hi) (k : Dbl) (h1 : lo.le k = true)
    (h2 : k.lt hi = true) : upper_bound edgeTable k = some (hi, i) := by
  obtain ⟨hsplit, hpre⟩ := table_split i lo hi hi12 hlo hhi
  rw [hsplit]
  exact upper_bound_window _ _ _ k (fun x hx => lt_false_of_le _ _ _ (hpre x hx) h1) h2
theorem bin_exists (q : ℚ) (hq : 0 ≤ q) : ∃ i lo hi, i < 12 ∧ edges[i]? = some lo ∧
    edges[i + 1]? = some hi ∧ lo.le (.fin q) = true ∧ (Dbl.fin q).lt hi = true := by
  rw [edges_eq]
  by_cases h1 : q < 20000
  · exact ⟨0, _, _, by norm_num, rfl, rfl, by simp [Dbl.le, hq], by simp [Dbl.lt, h1]⟩
  by_cases h2 : q < 30000
  · exact ⟨1, _, _, by norm_num, rfl, rfl, by simpa [Dbl.le] using le_of_not_lt ‹_›, by simp [Dbl.lt, h2]⟩
  by_cases h3 : q < 40000
  · exact ⟨2, _, _, by norm_num, rfl, rfl, by simpa [Dbl.le] using le_of_not_lt ‹_›, by simp [Dbl.lt, h3]⟩
  by_cases h4 : q < 50000
  · exact ⟨3, _, _, by norm_num, rfl, rfl, by simpa [Dbl.le] using le_of_not_lt ‹_›, by simp [Dbl.lt, h4]⟩
  by_cases h5 : q < 60000
  · exact ⟨4, _, _, by norm_num, rfl, rfl, by simpa [Dbl.le] using le_of_not_lt ‹_›, by simp [Dbl.lt, h5]⟩
  by_cases h6 : q < 75000
  · exact ⟨5, _, _, by norm_num, rfl, rfl, by simpa [Dbl.le] using le_of_not_lt ‹_›, by simp [Dbl.lt, h6]⟩
  by_cases h7 : q < 90000
  · exact ⟨6, _, _, by norm_num, rfl, rfl, by simpa [Dbl.le] using le_of_not_lt ‹_›, by simp [Dbl.lt, h7]⟩
  by_cases h8 : q < 110000
  · exact ⟨7, _, _, by norm_num, rfl, rfl, by simpa [Dbl.le] using le_of_not_lt ‹_›, by simp [Dbl.lt, h8]⟩
  by_cases h9 : q < 150000
  · exact ⟨8, _, _, by norm_num, rfl, rfl, by simpa [Dbl.le] using le_of_not_lt ‹_›, by simp [Dbl.lt, h9]⟩
  by_cases h10 : q < 200000
  · exact ⟨9, _, _, by norm_num, rfl, rfl, by simpa [Dbl.le] using le_of_not_lt ‹_›, by simp [Dbl.lt, h10]⟩
  by_cases h11 : q < 600000
  · exact ⟨10, _, _, by norm_num, rfl, rfl, by simpa [Dbl.le] using le_of_not_lt ‹_›, by simp [Dbl.lt, h11]⟩
  · exact ⟨11, _, _, by norm_num, rfl, rfl, by simpa [Dbl.le] using le_of_not_lt ‹_›, by simp [Dbl.lt]⟩

theorem edge_le_self (i : Nat) (lo : Dbl) (hi12 : i < 12) (hlo : edges[i]? = some lo) :
    ∃ q, lo = .fin q ∧ lo.le (.fin q) = true := by
  rw [edges_eq] at hlo
  interval_cases i <;> simp at hlo <;> subst hlo <;> exact ⟨_, rfl, by simp [Dbl.le]⟩

theorem edge_lt_next (i : Nat) (lo hi : Dbl) (hi12 : i < 12) (hlo : edges[i]? = some lo)
    (hhi : edges[i + 1]? = some hi) : lo.lt hi = true := by
  rw [edges_eq] at hlo hhi
  interval_cases i <;> simp at hlo hhi <;> subst hlo <;> subst hhi <;> norm_num [Dbl.lt]

/-! ## `FlavoredHists::writeTo` -/

theorem hub_written (b : BtagHists) : b.writeTo [] = .ok b.datasets := rfl

theorem writeTo_layout (a b0 b1 b2 b3 b4 b5 b6 b7 b8 b9 b10 b11 : BtagHists) :
    FlavoredHists.writeTo ⟨a, edgeTable, [b0, b1, b2, b3, b4, b5, b6, b7, b8, b9, b10, b11]⟩ [] =
      .ok [("btag", .group [("all", .group a.datasets),
        ("ptBins", .group (List.zip binNames
          ([b0, b1, b2, b3, b4, b5, b6, b7, b8, b9, b10, b11].map
            fun b => Node.group b.datasets)))])] := rfl

theorem writeTo_wellFormed (g : FlavoredHists) (hwf : g.WellFormed) :
    g.writeTo [] = .ok [("btag", .group [("all", .group g.m_btag.datasets),
        ("ptBins", .group (List.zip binNames
          (g.m_pt_btag.map fun b => Node.group b.datasets)))])] := by
  obtain ⟨htab, hlen⟩ := hwf
  rw [new_table] at htab
  obtain ⟨b0, b1, b2, b3, b4, b5, b6, b7, b8, b9, b10, b11, hl⟩ := length_twelve _ hlen
  obtain ⟨a, t, l⟩ := g
  simp only at htab hl
  subst htab; subst hl
  exact writeTo_layout a b0 b1 b2 b3 b4 b5 b6 b7 b8 b9 b10 b11

theorem writtenUnder_bin (g : FlavoredHists) (hwf : g.WellFormed) (i : Nat) (hi12 : i < 12)
    (name : String) (hname : binNames[i]? = some name) : g.WrittenUnder name i := by
  have hw := writeTo_wellFormed g hwf
  obtain ⟨b0, b1, b2, b3, b4, b5, b6, b7, b8, b9, b10, b11, hl⟩ := length_twelve _ hwf.2
  unfold FlavoredHists.WrittenUnder FlavoredHists.written
  rw [hw, hl]
  interval_cases i <;> simp [binNames] at hname <;> subst hname <;>
    exact ⟨rfl, _, rfl, rfl, rfl⟩

theorem name_of_bin (i : Nat) (lo hi : Dbl) (hi12 : i < 12) (hlo : edges[i]? = some lo)
    (hhi : edges[i + 1]? = some hi) : ∃ llo lhi, binString lo = some llo ∧
      binString hi = some lhi ∧ binNames[i]? = some (llo ++ "-" ++ lhi) ∧
      lowerLabel (llo ++ "-" ++ lhi) = llo ∧ upperLabel (llo ++ "-" ++ lhi) = lhi := by
  rw [edges_eq] at hlo hhi
  refine ⟨edgeLabels.getD i "", edgeLabels.getD (i + 1) "", ?_⟩
  interval_cases i <;> simp only [List.getElem?_cons_succ, List.getElem?_cons_zero,
      Option.some.injEq] at hlo hhi <;> subst hlo <;> subst hhi <;> decide

theorem filledAt_wellFormed (h : FlavoredHists) (hwf : h.WellFormed) (i : Nat) (jet : Jet)
    (w : ℚ) : (h.filledAt i jet w).WellFormed :=
  ⟨hwf.1, by simp [FlavoredHists.filledAt, length_modifyAt, hwf.2]⟩

theorem filledAll_wellFormed (h : FlavoredHists) (hwf : h.WellFormed) (jet : Jet)
    (w : ℚ) : (h.filledAll jet w).WellFormed := hwf

theorem written_wellFormed (g : FlavoredHists) (hwf : g.WellFormed) :
    g.written = [("btag", .group [("all", .group g.m_btag.datasets),
        ("ptBins", .group (List.zip binNames
          (g.m_pt_btag.map fun b => Node.group b.datasets)))])] := by
  rw [FlavoredHists.written, writeTo_wellFormed g hwf]; rfl

theorem names_wellFormed (g : FlavoredHists) (hwf : g.WellFormed) :
    Group.namesAt g.written ["btag", "ptBins"] = binNames := by
  obtain ⟨b0, b1, b2, b3, b4, b5, b6, b7, b8, b9, b10, b11, hl⟩ := length_twelve _ hwf.2
  rw [written_wellFormed g hwf, hl]; rfl

theorem fill_state_shape (h : FlavoredHists) (jet : Jet) (w : ℚ) :
    (h.fill jet w).state.m_pt_bins = h.m_pt_bins ∧
      (h.fill jet w).state.m_pt_btag.length = h.m_pt_btag.length := by
  cases hu : upper_bound h.m_pt_bins jet.pt with
  | none => simp [FlavoredHists.fill, hu, Res.state]
  | some e =>
    cases hg : h.m_pt_btag[e.2]? with
    | none => simp [FlavoredHists.fill, hu, hg, Res.state]
    | some hub => simp [FlavoredHists.fill, hu, hg, Res.state]

theorem fills_shape (batch : List (Jet × ℚ)) (h : FlavoredHists) :
    (h.fills batch).m_pt_bins = h.m_pt_bins ∧
      (h.fills batch).m_pt_btag.length = h.m_pt_btag.length := by
  induction batch generalizing h with
  | nil => exact ⟨rfl, rfl⟩
  | cons x xs ih =>
    obtain ⟨h1, h2⟩ := fill_state_shape h x.1 x.2
    obtain ⟨h3, h4⟩ := ih (h.fill x.1 x.2).state
    exact ⟨by simpa [FlavoredHists.fills] using h3.trans h1,
      by simpa [FlavoredHists.fills] using h4.trans h2⟩

/-! ## Momentum routing -/

/-- C1, counterexample. A jet with `pt = 30000`, equal to the edge labelled
"30": the groups under `ptBins` are "0-20" ... "600-INF", the only one whose
upper label is "30" is "20-30" and its `mv1` histogram received nothing; the
jet is in the `mv1` histogram of "30-40". -/
theorem edge_pt_lands_in_next_bin_up :
    (FlavoredHists.new.fill (sampleJet 0 (.fin 30000)) 1).error = none ∧
    Group.namesAt (FlavoredHists.new.fill (sampleJet 0 (.fin 30000)) 1).state.written
      ["btag", "ptBins"] = ["0-20", "20-30", "30-40", "40-50", "50-60", "60-75", "75-90",
        "90-110", "110-150", "150-200", "200-600", "600-INF"] ∧
    Group.find (FlavoredHists.new.fill (sampleJet 0 (.fin 30000)) 1).state.written
      ["btag", "ptBins", "20-30", "mv1"] = some (.dataset ⟨.unit, []⟩) ∧
    Group.find (FlavoredHists.new.fill (sampleJet 0 (.fin 30000)) 1).state.written
      ["btag", "ptBins", "30-40", "mv1"] =
        some (.dataset ⟨.unit, [(.val (.fin (9 / 10)), 1)]⟩) := by
  have hub : upper_bound edgeTable (sampleJet 0 (.fin 30000)).pt = some (.fin 40000, 2) := by
    simp only [sampleJet]; rw [upper_bound_table]; norm_num
  have hf := fill_of_entry FlavoredHists.new new_wellFormed (sampleJet 0 (.fin 30000)) 1 _ 2
    (by norm_num) hub
  have hwf := filledAt_wellFormed FlavoredHists.new new_wellFormed 2 (sampleJet 0 (.fin 30000)) 1
  rw [hf]
  refine ⟨rfl, ?_, ?_, ?_⟩
  · exact names_wellFormed _ hwf
  · simp only [Res.state]; rw [written_wellFormed _ hwf]; rfl
  · simp only [Res.state]; rw [written_wellFormed _ hwf]; rfl

/-- C1, amended. A jet whose `pt` equals a finite edge `e` of the table is
added to the all-momenta hub and to the hub of the bin whose lower edge is
`e`: the hub `writeTo` stores under the `ptBins` group named
"label of e"-"label of the next edge up". -/
theorem edge_pt_routes_to_bin_with_lower_edge (i : Nat) (e next : Dbl) (jet : Jet) (w : ℚ)
    (h : FlavoredHists) (hi12 : i < 12) (he : edges[i]? = some e)
    (hnext : edges[i + 1]? = some next) (hpt : jet.pt = e) (hwf : h.WellFormed) :
    h.fill jet w = .ok (h.filledAt i jet w) ∧
    ∃ le lnext, binString e = some le ∧ binString next = some lnext ∧
      ∀ g : FlavoredHists, g.WellFormed → g.WrittenUnder (le ++ "-" ++ lnext) i := by
  obtain ⟨q, hq, hle⟩ := edge_le_self i e hi12 he
  have hlt := edge_lt_next i e next hi12 he hnext
  have hub : upper_bound edgeTable jet.pt = some (next, i) := by
    rw [hpt]
    exact entry_of_bin i e next hi12 he hnext e (by rw [hq] at hle ⊢; exact hle) hlt
  refine ⟨fill_of_entry h hwf jet w next i hi12 hub, ?_⟩
  obtain ⟨le, lnext, h1, h2, h3, _, _⟩ := name_of_bin i e next hi12 he hnext
  exact ⟨le, lnext, h1, h2, fun g hg => writtenUnder_bin g hg i hi12 _ h3⟩

theorem edge_pt_routes_to_bin_with_lower_edge_witness :
    (FlavoredHists.new.fill (sampleJet 0 (.fin 30000)) 1 =
      .ok (FlavoredHists.new.filledAt 2 (sampleJet 0 (.fin 30000)) 1)) ∧
    ∃ le lnext, binString (.fin 30000) = some le ∧ binString (.fin 40000) = some lnext ∧
      ∀ g : FlavoredHists, g.WellFormed → g.WrittenUnder (le ++ "-" ++ lnext) 2 :=
  edge_pt_routes_to_bin_with_lower_edge 2 (.fin 30000) (.fin 40000)
    (sampleJet 0 (.fin 30000)) 1 FlavoredHists.new (by decide)
    (by rw [edges_eq]; rfl) (by rw [edges_eq]; rfl) rfl new_wellFormed

/-- C2. For a finite `pt >= 0` the lookup of `fill` selects the first edge
strictly greater than `pt`: there is a bin `i < 12` with
`E[i] <= pt < E[i+1]`, the entry found is the one of `E[i+1]` and the jet
goes to the all-momenta hub and to hub `i`, no other hub changing; a `pt`
equal to a finite edge `E[i]` is in the bin whose upper edge is `E[i+1]`. -/
theorem fill_selects_first_edge_above (h : FlavoredHists) (jet : Jet) (w q : ℚ)
    (hwf : h.WellFormed) (hpt : jet.pt = .fin q) (hq : 0 ≤ q) :
    edges = [.fin 0, .fin 20000, .fin 30000, .fin 40000, .fin 50000, .fin 60000,
      .fin 75000, .fin 90000, .fin 110000, .fin 150000, .fin 200000, .fin 600000, .posInf] ∧
    (∃ i lo hi, i < 12 ∧ edges[i]? = some lo ∧ edges[i + 1]? = some hi ∧
      lo.le jet.pt = true ∧ jet.pt.lt hi = true ∧
      upper_bound h.m_pt_bins jet.pt = some (hi, i) ∧
      h.fill jet w = .ok (h.filledAt i jet w)) ∧
    (∀ i lo hi, i < 12 → edges[i]? = some lo → edges[i + 1]? = some hi → jet.pt = lo →
      upper_bound h.m_pt_bins jet.pt = some (hi, i) ∧
      h.fill jet w = .ok (h.filledAt i jet w)) := by
  have htab : h.m_pt_bins = edgeTable := hwf.1.trans new_table
  refine ⟨edges_eq, ?_, ?_⟩
  · obtain ⟨i, lo, hi, hi12, hlo, hhi, h1, h2⟩ := bin_exists q hq
    have hub := entry_of_bin i lo hi hi12 hlo hhi (.fin q) h1 h2
    rw [← hpt] at hub h1 h2
    exact ⟨i, lo, hi, hi12, hlo, hhi, h1, h2, by rw [htab]; exact hub,
      fill_of_entry h hwf jet w hi i hi12 hub⟩
  · intro i lo hi hi12 hlo hhi hlo_pt
    obtain ⟨r, hr, hle⟩ := edge_le_self i lo hi12 hlo
    have hlt := edge_lt_next i lo hi hi12 hlo hhi
    have hub : upper_bound edgeTable jet.pt = some (hi, i) := by
      rw [hlo_pt]
      exact entry_of_bin i lo hi hi12 hlo hhi lo (by rw [hr] at hle ⊢; exact hle) hlt
    exact ⟨by rw [htab]; exact hub, fill_of_entry h hwf jet w hi i hi12 hub⟩

theorem fill_selects_first_edge_above_witness :
    edges = [.fin 0, .fin 20000, .fin 30000, .fin 40000, .fin 50000, .fin 60000,
      .fin 75000, .fin 90000, .fin 110000, .fin 150000, .fin 200000, .fin 600000, .posInf] ∧
    (∃ i lo hi, i < 12 ∧ edges[i]? = some lo ∧ edges[i + 1]? = some hi ∧
      lo.le (sampleJet 0 (.fin 25000)).pt = true ∧ (sampleJet 0 (.fin 25000)).pt.lt hi = true ∧
      upper_bound FlavoredHists.new.m_pt_bins (sampleJet 0 (.fin 25000)).pt = some (hi, i) ∧
      FlavoredHists.new.fill (sampleJet 0 (.fin 25000)) 1 =
        .ok (FlavoredHists.new.filledAt i (sampleJet 0 (.fin 25000)) 1)) ∧
    (∀ i lo hi, i < 12 → edges[i]? = some lo → edges[i + 1]? = some hi →
      (sampleJet 0 (.fin 25000)).pt = lo →
      upper_bound FlavoredHists.new.m_pt_bins (sampleJet 0 (.fin 25000)).pt = some (hi, i) ∧
      FlavoredHists.new.fill (sampleJet 0 (.fin 25000)) 1 =
        .ok (FlavoredHists.new.filledAt i (sampleJet 0 (.fin 25000)) 1)) :=
  fill_selects_first_edge_above FlavoredHists.new (sampleJet 0 (.fin 25000)) 1 25000
    new_wellFormed rfl (by norm_num)

/-- C4, counterexample. Written from a freshly constructed aggregator, the
first group under `ptBins` is "0-20": its lower label is "0", and no group
carries the lower label "NONE". -/
theorem first_bin_group_is_not_NONE :
    (Group.namesAt FlavoredHists.new.written ["btag", "ptBins"]).head? = some "0-20" ∧
    (Group.namesAt FlavoredHists.new.written ["btag", "ptBins"]).map lowerLabel =
      ["0", "20", "30", "40", "50", "60", "75", "90", "110", "150", "200", "600"] ∧
    "NONE" ∉ (Group.namesAt FlavoredHists.new.written ["btag", "ptBins"]).map lowerLabel := by
  rw [names_wellFormed _ new_wellFormed]
  decide

/-- C4, amended. `writeTo` creates under `ptBins` one group per pair of
consecutive table edges, in ascending order, named
"label of the lower edge"-"label of the upper edge", holding the hubs 0 to
11 in this order; the first group is "0-20" (the entry of edge 0 creates no
group, so the initial value "NONE" of the lower label is never used) and
the upper label of the last group is "INF". -/
theorem writeTo_bin_groups (h : FlavoredHists) (hwf : h.WellFormed) :
    (h.writeTo []).error = none ∧
    Group.namesAt h.written ["btag", "ptBins"] =
      List.zipWith (fun lo hi => lo ++ "-" ++ hi) (edges.filterMap binString)
        (edges.filterMap binString).tail ∧
    Group.namesAt h.written ["btag", "ptBins"] =
      ["0-20", "20-30", "30-40", "40-50", "50-60", "60-75", "75-90", "90-110", "110-150",
        "150-200", "200-600", "600-INF"] ∧
    (∀ i name, i < 12 → (Group.namesAt h.written ["btag", "ptBins"])[i]? = some name →
      h.WrittenUnder name i) ∧
    ((Group.namesAt h.written ["btag", "ptBins"]).map lowerLabel).head? = some "0" ∧
    ((Group.namesAt h.written ["btag", "ptBins"]).map upperLabel).getLast? = some "INF" := by
  rw [names_wellFormed h hwf]
  refine ⟨by rw [writeTo_wellFormed h hwf]; rfl, ?_, rfl, ?_, by decide, by decide⟩
  · rw [edges_eq]; decide
  · intro i name hi12 hname
    exact writtenUnder_bin h hwf i hi12 name hname

theorem writeTo_bin_groups_witness :
    (FlavoredHists.new.writeTo []).error = none ∧
    Group.namesAt FlavoredHists.new.written ["btag", "ptBins"] =
      List.zipWith (fun lo hi => lo ++ "-" ++ hi) (edges.filterMap binString)
        (edges.filterMap binString).tail ∧
    Group.namesAt FlavoredHists.new.written ["btag", "ptBins"] =
      ["0-20", "20-30", "30-40", "40-50", "50-60", "60-75", "75-90", "90-110", "110-150",
        "150-200", "200-600", "600-INF"] ∧
    (∀ i name, i < 12 →
      (Group.namesAt FlavoredHists.new.written ["btag", "ptBins"])[i]? = some name →
      FlavoredHists.new.WrittenUnder name i) ∧
    ((Group.namesAt FlavoredHists.new.written ["btag", "ptBins"]).map lowerLabel).head? =
      some "0" ∧
    ((Group.namesAt FlavoredHists.new.written ["btag", "ptBins"]).map upperLabel).getLast? =
      some "INF" :=
  writeTo_bin_groups FlavoredHists.new new_wellFormed

/-- C5, counterexample. A freshly constructed aggregator has 12 hubs and a
table of 13 edges: the two sizes differ. -/
theorem hub_count_differs_from_edge_count :
    FlavoredHists.new.m_pt_btag.length = 12 ∧ FlavoredHists.new.m_pt_bins.length = 13 ∧
    FlavoredHists.new.m_pt_btag.length ≠ FlavoredHists.new.m_pt_bins.length := by
  rw [new_table]
  decide

/-- C5, amended. After construction and after any sequence of fills,
whether they return or throw, there are 12 per-bin hubs and 13 table edges,
the infinite one included: one hub per pair of consecutive edges, that is
one hub less than edges. -/
theorem hub_count_is_edge_count_minus_one (batch : List (Jet × ℚ)) :
    (FlavoredHists.new.fills batch).m_pt_btag.length = 12 ∧
    (FlavoredHists.new.fills batch).m_pt_bins.length = 13 ∧
    (FlavoredHists.new.fills batch).m_pt_btag.length + 1 =
      (FlavoredHists.new.fills batch).m_pt_bins.length := by
  obtain ⟨h1, h2⟩ := fills_shape batch FlavoredHists.new
  rw [h1, h2, new_table]
  decide

/-- C6, counterexample. A jet with the finite `pt = -1`: the lookup returns
the entry of edge 0, whose index is the wrapped `-1`; the bounds-checked
access raises `out_of_range` and no per-bin hub receives the jet. -/
theorem negative_pt_raises :
    upper_bound FlavoredHists.new.m_pt_bins (sampleJet 0 (.fin (-1))).pt =
      some (.fin 0, 18446744073709551615) ∧
    (FlavoredHists.new.fill (sampleJet 0 (.fin (-1))) 1).error = some .out_of_range ∧
    (FlavoredHists.new.fill (sampleJet 0 (.fin (-1))) 1).state.m_pt_btag =
      FlavoredHists.new.m_pt_btag := by
  have hub : upper_bound edgeTable (sampleJet 0 (.fin (-1))).pt =
      some (.fin 0, 18446744073709551615) := by
    simp only [sampleJet]; rw [upper_bound_table]; norm_num
  rw [fill_of_wrapped FlavoredHists.new new_wellFormed _ 1 _ hub, new_table]
  exact ⟨hub, rfl, rfl⟩

/-- C6, amended. For every finite `pt` the lookup of `fill` returns a table
entry (the past-the-end case does not occur). When `pt >= 0` the jet is
added to one of the twelve per-bin hubs and the call returns; when `pt < 0`
the entry is the one of edge 0, the hub access raises `out_of_range` and the
jet has been added to the all-momenta hub only. -/
theorem finite_pt_finds_entry (h : FlavoredHists) (jet : Jet) (w q : ℚ)
    (hwf : h.WellFormed) (hpt : jet.pt = .fin q) :
    (∃ entry, upper_bound h.m_pt_bins jet.pt = some entry) ∧
    (0 ≤ q → ∃ i, i < 12 ∧ h.fill jet w = .ok (h.filledAt i jet w)) ∧
    (q < 0 → upper_bound h.m_pt_bins jet.pt = some (.fin 0, toSizeT (-1)) ∧
      h.fill jet w = .thrown .out_of_range (h.filledAll jet w)) := by
  have htab : h.m_pt_bins = edgeTable := hwf.1.trans new_table
  have hpos : 0 ≤ q → ∃ i hi, i < 12 ∧ upper_bound edgeTable jet.pt = some (hi, i) := by
    intro hq
    obtain ⟨i, lo, hi, hi12, hlo, hhi, h1, h2⟩ := bin_exists q hq
    exact ⟨i, hi, hi12, by rw [hpt]; exact entry_of_bin i lo hi hi12 hlo hhi (.fin q) h1 h2⟩
  have hneg : q < 0 → upper_bound edgeTable jet.pt = some (.fin 0, 18446744073709551615) := by
    intro hq
    rw [hpt, upper_bound_table, if_pos hq]
  refine ⟨?_, ?_, ?_⟩
  · rw [htab]
    rcases lt_or_le q 0 with hq | hq
    · exact ⟨_, hneg hq⟩
    · obtain ⟨i, hi, _, hub⟩ := hpos hq
      exact ⟨_, hub⟩
  · intro hq
    obtain ⟨i, hi, hi12, hub⟩ := hpos hq
    exact ⟨i, hi12, fill_of_entry h hwf jet w hi i hi12 hub⟩
  · intro hq
    have hsz : toSizeT (-1) = 18446744073709551615 := by decide
    rw [htab, hsz]
    exact ⟨hneg hq, fill_of_wrapped h hwf jet w _ (hneg hq)⟩

theorem finite_pt_finds_entry_witness :
    (∃ entry, upper_bound FlavoredHists.new.m_pt_bins (sampleJet 0 (.fin 25000)).pt =
      some entry) ∧
    ((0 : ℚ) ≤ 25000 → ∃ i, i < 12 ∧ FlavoredHists.new.fill (sampleJet 0 (.fin 25000)) 1 =
      .ok (FlavoredHists.new.filledAt i (sampleJet 0 (.fin 25000)) 1)) ∧
    ((25000 : ℚ) < 0 →
      upper_bound FlavoredHists.new.m_pt_bins (sampleJet 0 (.fin 25000)).pt =
        some (.fin 0, toSizeT (-1)) ∧
      FlavoredHists.new.fill (sampleJet 0 (.fin 25000)) 1 =
        .thrown .out_of_range (FlavoredHists.new.filledAll (sampleJet 0 (.fin 25000)) 1)) :=
  finite_pt_finds_entry FlavoredHists.new (sampleJet 0 (.fin 25000)) 1 25000
    new_wellFormed rfl

/-- C7. For `pt` strictly between two consecutive table edges `lo < pt < hi`
the jet is added to the all-momenta hub and to one per-bin hub, the one
`writeTo` stores under the `ptBins` group "label of lo"-"label of hi", whose
upper label is the label of `hi`; for a `pt` above the last finite edge
600000 it is hub 11 and that upper label is "INF". -/
theorem between_edges_routes_to_upper_edge (i : Nat) (lo hi : Dbl) (jet : Jet) (w q : ℚ)
    (h : FlavoredHists) (hi12 : i < 12) (hlo : edges[i]? = some lo)
    (hhi : edges[i + 1]? = some hi) (hpt : jet.pt = .fin q) (h1 : lo.lt jet.pt = true)
    (h2 : jet.pt.lt hi = true) (hwf : h.WellFormed) :
    h.fill jet w = .ok (h.filledAt i jet w) ∧
    ∃ llo lhi, binString lo = some llo ∧ binString hi = some lhi ∧
      upperLabel (llo ++ "-" ++ lhi) = lhi ∧
      (∀ g : FlavoredHists, g.WellFormed → g.WrittenUnder (llo ++ "-" ++ lhi) i) ∧
      (600000 < q → i = 11 ∧ lhi = "INF") := by
  obtain ⟨r, hr, _⟩ := edge_le_self i lo hi12 hlo
  have hle : lo.le jet.pt = true := by
    rw [hr, hpt] at h1 ⊢
    simp only [lt_fin_fin, le_fin_fin, decide_eq_true_eq] at h1 ⊢
    exact le_of_lt h1
  have hub := entry_of_bin i lo hi hi12 hlo hhi jet.pt hle h2
  refine ⟨fill_of_entry h hwf jet w hi i hi12 hub, ?_⟩
  obtain ⟨llo, lhi, n1, n2, n3, _, n5⟩ := name_of_bin i lo hi hi12 hlo hhi
  refine ⟨llo, lhi, n1, n2, n5, fun g hg => writtenUnder_bin g hg i hi12 _ n3, ?_⟩
  intro hq
  rw [hpt] at h2
  rw [edges_eq] at hhi
  interval_cases i <;> simp only [List.getElem?_cons_succ, List.getElem?_cons_zero,
      Option.some.injEq] at hhi <;> subst hhi <;>
    first
    | exact ⟨rfl, (Option.some.inj n2).symm⟩
    | (simp only [lt_fin_fin, decide_eq_true_eq] at h2
       exact absurd (lt_trans hq h2) (by norm_num))

theorem between_edges_routes_to_upper_edge_witness :
    (FlavoredHists.new.fill (sampleJet 0 (.fin 700000)) 1 =
      .ok (FlavoredHists.new.filledAt 11 (sampleJet 0 (.fin 700000)) 1)) ∧
    ∃ llo lhi, binString (.fin 600000) = some llo ∧ binString .posInf = some lhi ∧
      upperLabel (llo ++ "-" ++ lhi) = lhi ∧
      (∀ g : FlavoredHists, g.WellFormed → g.WrittenUnder (llo ++ "-" ++ lhi) 11) ∧
      ((600000 : ℚ) < 700000 → 11 = 11 ∧ lhi = "INF") :=
  between_edges_routes_to_upper_edge 11 (.fin 600000) .posInf (sampleJet 0 (.fin 700000)) 1
    700000 FlavoredHists.new (by decide) (by rw [edges_eq]; rfl) (by rw [edges_eq]; rfl) rfl
    (by norm_num [sampleJet, lt_fin_fin]) rfl new_wellFormed

/-! ## The flavour router -/

theorem index_of_label (l : Int) (h0 : 0 ≤ l) (h4 : l < 4) :
    toSizeT (static_cast_int l) = l.toNat ∧ toSizeT l = l.toNat ∧ l.toNat < 4 := by
  simp only [toSizeT, static_cast_int, SIZE_RANGE]
  norm_num
  omega

theorem index_out_of_range (l : Int)
    (h : static_cast_int l < 0 ∨ 4 ≤ static_cast_int l) :
    4 ≤ toSizeT (static_cast_int l) := by
  simp only [toSizeT, static_cast_int, SIZE_RANGE] at h ⊢
  norm_num at h ⊢
  omega

theorem getElem_modifyAt_same {α : Type} (f : α → α) (k : Nat) (l : List α) (a : α)
    (h : l[k]? = some a) : (modifyAt f k l)[k]? = some (f a) := by
  induction l generalizing k with
  | nil => simp at h
  | cons y ys ih =>
    cases k with
    | zero =>
      simp at h
      simp [modifyAt, h]
    | succ n =>
      simp at h
      simp [modifyAt, ih n h]

theorem getElem_modifyAt_other {α : Type} (f : α → α) (k j : Nat) (l : List α)
    (h : j ≠ k) : (modifyAt f k l)[j]? = l[j]? := by
  induction l generalizing k j with
  | nil => simp [modifyAt]
  | cons y ys ih =>
    cases k with
    | zero =>
      cases j with
      | zero => exact absurd rfl h
      | succ m => simp [modifyAt]
    | succ n =>
      cases j with
      | zero => simp [modifyAt]
      | succ m => simp [modifyAt, ih n m (fun e => h (by rw [e]))]

theorem mem_modifyAt {α : Type} (f : α → α) (k : Nat) (l : List α) (x : α)
    (h : x ∈ modifyAt f k l) : x ∈ l ∨ ∃ a ∈ l, x = f a := by
  induction l generalizing k with
  | nil => simp [modifyAt] at h
  | cons y ys ih =>
    cases k with
    | zero =>
      simp only [modifyAt, List.mem_cons] at h
      rcases h with h | h
      · exact Or.inr ⟨y, by simp, h⟩
      · exact Or.inl (by simp [h])
    | succ n =>
      simp only [modifyAt, List.mem_cons] at h
      rcases h with h | h
      · exact Or.inl (by simp [h])
      · rcases ih n h with h1 | ⟨a, ha, hx⟩
        · exact Or.inl (by simp [h1])
        · exact Or.inr ⟨a, by simp [ha], hx⟩

theorem sum_modifyAt {α : Type} (f : α → α) (g : α → ℚ) (w : ℚ) (k : Nat) (l : List α)
    (hk : k < l.length) (hf : ∀ a, g (f a) = g a + w) :
    ((modifyAt f k l).map g).sum = (l.map g).sum + w := by
  induction l generalizing k with
  | nil => simp at hk
  | cons y ys ih =>
    cases k with
    | zero => simp [modifyAt, hf]; ring
    | succ n =>
      have hn : n < ys.length := by simpa using hk
      simp [modifyAt, ih n hn]; ring

theorem weight_fill (b : BtagHists) (jet : Jet) (w : ℚ) :
    (b.fill jet w).weight = b.weight + w := by
  simp [BtagHists.weight, BtagHists.fill, Histogram.fill]

theorem getElem_of_lt {α : Type} (l : List α) (k : Nat) (h : k < l.length) :
    ∃ a, l[k]? = some a ∧ a ∈ l :=
  ⟨l[k], by simp [h], List.getElem_mem h⟩

theorem router_new_wellFormed : JetPerfHists.new.WellFormed := by
  refine ⟨by simp [JetPerfHists.new], ?_⟩
  intro a ha
  simp only [JetPerfHists.new, List.mem_replicate] at ha
  rw [ha.2]
  exact new_wellFormed

theorem router_fill_entry (J : JetPerfHists) (hJ : J.WellFormed) (jet : Jet) (w : ℚ)
    (h0 : 0 ≤ jet.truth_label) (h4 : jet.truth_label < 4) (hi : Dbl) (i : Nat) (hi12 : i < 12)
    (hub : upper_bound edgeTable jet.pt = some (hi, i)) :
    J.fill jet w =
      .ok ⟨modifyAt (fun a => a.filledAt i jet w) jet.truth_label.toNat J.m_flavors⟩ := by
  obtain ⟨hidx, _, hlt⟩ := index_of_label jet.truth_label h0 h4
  obtain ⟨agg, hget, hmem⟩ := getElem_of_lt J.m_flavors jet.truth_label.toNat
    (by rw [hJ.1]; exact hlt)
  have hwf := hJ.2 agg hmem
  simp only [JetPerfHists.fill, hidx, hget, fill_of_entry _ hwf jet w hi i hi12 hub, Res.map]
  rw [set_eq_modifyAt (fun a => a.filledAt i jet w) _ _ _ hget]

theorem router_fill_wellFormed (J : JetPerfHists) (hJ : J.WellFormed) (jet : Jet) (w : ℚ)
    (i k : Nat) :
    JetPerfHists.WellFormed ⟨modifyAt (fun a => a.filledAt i jet w) k J.m_flavors⟩ := by
  refine ⟨by simp [length_modifyAt, hJ.1], ?_⟩
  intro x hx
  rcases mem_modifyAt _ _ _ _ hx with h | ⟨a, ha, hxa⟩
  · exact hJ.2 x h
  · rw [hxa]
    exact filledAt_wellFormed a (hJ.2 a ha) i jet w

theorem agg_written (g : FlavoredHists) (hwf : g.WellFormed) :
    g.writeTo [] = .ok g.written := by
  rw [FlavoredHists.written, writeTo_wellFormed g hwf]; rfl

theorem writeFlavors_step (fc : FlavorCode) (J : JetPerfHists) (code : Int) (name : String)
    (rest : List Int) (fg : Group) (agg : FlavoredHists)
    (hname : flavorString fc code = .ok name) (hfresh : fg.hasChild name = false)
    (hagg : J.m_flavors[toSizeT code]? = some agg) (hwf : agg.WellFormed) :
    JetPerfHists.writeFlavors fc J (code :: rest) fg =
      JetPerfHists.writeFlavors fc J rest (fg ++ [(name, .group agg.written)]) := by
  simp only [JetPerfHists.writeFlavors, hname, Group.createGroup, hfresh, hagg,
    agg_written agg hwf, Res.map, Res.bind]
  rfl

theorem flavorString_valid (fc : FlavorCode) (hfc : fc.Valid) :
    flavorString fc fc.B = .ok "B" ∧ flavorString fc fc.C = .ok "C" ∧
    flavorString fc fc.U = .ok "U" ∧ flavorString fc fc.T = .ok "T" := by
  obtain ⟨_, _, _, _, hbc, hbu, hbt, hcu, hct, hut⟩ := hfc
  refine ⟨?_, ?_, ?_, ?_⟩
  · simp [flavorString, hbu]
  · simp [flavorString, hcu, Ne.symm hbc]
  · simp [flavorString]
  · simp [flavorString, Ne.symm hut, Ne.symm hbt, Ne.symm hct]

theorem router_writeTo (fc : FlavorCode) (hfc : fc.Valid) (J : JetPerfHists)
    (aB aC aU aT : FlavoredHists)
    (hB : J.m_flavors[fc.B.toNat]? = some aB) (hC : J.m_flavors[fc.C.toNat]? = some aC)
    (hU : J.m_flavors[fc.U.toNat]? = some aU) (hT : J.m_flavors[fc.T.toNat]? = some aT)
    (wB : aB.WellFormed) (wC : aC.WellFormed) (wU : aU.WellFormed) (wT : aT.WellFormed) :
    J.writeTo fc [] = .ok [("B", .group aB.written), ("C", .group aC.written),
      ("U", .group aU.written), ("T", .group aT.written)] := by
  obtain ⟨nB, nC, nU, nT⟩ := flavorString_valid fc hfc
  obtain ⟨⟨b0, b4⟩, ⟨c0, c4⟩, ⟨u0, u4⟩, ⟨t0, t4⟩, _⟩ := hfc
  rw [← (index_of_label fc.B b0 b4).2.1] at hB
  rw [← (index_of_label fc.C c0 c4).2.1] at hC
  rw [← (index_of_label fc.U u0 u4).2.1] at hU
  rw [← (index_of_label fc.T t0 t4).2.1] at hT
  have s1 := writeFlavors_step fc J fc.B "B" [fc.C, fc.U, fc.T] [] aB nB rfl hB wB
  have s2 := writeFlavors_step fc J fc.C "C" [fc.U, fc.T] [("B", Node.group aB.written)]
    aC nC rfl hC wC
  have s3 := writeFlavors_step fc J fc.U "U" [fc.T]
    [("B", Node.group aB.written), ("C", Node.group aC.written)] aU nU rfl hU wU
  have s4 := writeFlavors_step fc J fc.T "T" []
    [("B", Node.group aB.written), ("C", Node.group aC.written),
      ("U", Node.group aU.written)] aT nT rfl hT wT
  exact s1.trans (s2.trans (s3.trans (s4.trans rfl)))

theorem router_aggregators (fc : FlavorCode) (hfc : fc.Valid) (J : JetPerfHists)
    (hJ : J.WellFormed) : ∃ aB aC aU aT,
      J.m_flavors[fc.B.toNat]? = some aB ∧ J.m_flavors[fc.C.toNat]? = some aC ∧
      J.m_flavors[fc.U.toNat]? = some aU ∧ J.m_flavors[fc.T.toNat]? = some aT ∧
      aB.WellFormed ∧ aC.WellFormed ∧ aU.WellFormed ∧ aT.WellFormed := by
  obtain ⟨⟨b0, b4⟩, ⟨c0, c4⟩, ⟨u0, u4⟩, ⟨t0, t4⟩, _⟩ := hfc
  obtain ⟨aB, hB, mB⟩ := getElem_of_lt J.m_flavors fc.B.toNat
    (by rw [hJ.1]; exact (index_of_label fc.B b0 b4).2.2)
  obtain ⟨aC, hC, mC⟩ := getElem_of_lt J.m_flavors fc.C.toNat
    (by rw [hJ.1]; exact (index_of_label fc.C c0 c4).2.2)
  obtain ⟨aU, hU, mU⟩ := getElem_of_lt J.m_flavors fc.U.toNat
    (by rw [hJ.1]; exact (index_of_label fc.U u0 u4).2.2)
  obtain ⟨aT, hT, mT⟩ := getElem_of_lt J.m_flavors fc.T.toNat
    (by rw [hJ.1]; exact (index_of_label fc.T t0 t4).2.2)
  exact ⟨aB, aC, aU, aT, hB, hC, hU, hT, hJ.2 aB mB, hJ.2 aC mC, hJ.2 aU mU, hJ.2 aT mT⟩

theorem label_in_range (fc : FlavorCode) (hfc : fc.Valid) (l : Int)
    (hl : l ∈ [fc.B, fc.C, fc.U, fc.T]) : 0 ≤ l ∧ l < 4 := by
  obtain ⟨hb, hc, hu, ht, _⟩ := hfc
  simp only [List.mem_cons, List.mem_singleton, List.not_mem_nil, or_false] at hl
  rcases hl with h | h | h | h <;> rw [h] <;> assumption

theorem router_fill_delegates (J : JetPerfHists) (jet : Jet) (w : ℚ) (code : Int)
    (h0 : 0 ≤ code) (h4 : code < 4) (agg : FlavoredHists)
    (hagg : J.m_flavors[code.toNat]? = some agg) (hl : jet.truth_label = code) :
    J.fill jet w = (agg.fill jet w).map fun a => ⟨J.m_flavors.set code.toNat a⟩ := by
  simp only [JetPerfHists.fill, hl, (index_of_label code h0 h4).1, hagg]

theorem router_new_get (k : Nat) (hk : k < 4) :
    JetPerfHists.new.m_flavors[k]? = some FlavoredHists.new := by
  interval_cases k <;> rfl

theorem fillAll_weight (batch : List (Jet × ℚ)) (J : JetPerfHists) (hJ : J.WellFormed)
    (hb : ∀ x ∈ batch, (0 ≤ x.1.truth_label ∧ x.1.truth_label < 4) ∧
      ∃ q, x.1.pt = .fin q ∧ 0 ≤ q) :
    (J.fillAll batch).error = none ∧
      (J.fillAll batch).state.allWeight = J.allWeight + (batch.map Prod.snd).sum := by
  induction batch generalizing J with
  | nil => simp [JetPerfHists.fillAll, Res.error, Res.state]
  | cons x xs ih =>
    obtain ⟨⟨h0, h4⟩, q, hpt, hq⟩ := hb x (by simp)
    obtain ⟨i, lo, hi, hi12, hlo, hhi, h1, h2⟩ := bin_exists q hq
    have hub : upper_bound edgeTable x.1.pt = some (hi, i) := by
      rw [hpt]; exact entry_of_bin i lo hi hi12 hlo hhi (.fin q) h1 h2
    have hfill := router_fill_entry J hJ x.1 x.2 h0 h4 hi i hi12 hub
    have hwf := router_fill_wellFormed J hJ x.1 x.2 i x.1.truth_label.toNat
    obtain ⟨e1, e2⟩ := ih _ hwf (fun y hy => hb y (by simp [hy]))
    have hsum : JetPerfHists.allWeight
        ⟨modifyAt (fun a => a.filledAt i x.1 x.2) x.1.truth_label.toNat J.m_flavors⟩ =
        J.allWeight + x.2 := by
      simp only [JetPerfHists.allWeight]
      exact sum_modifyAt _ _ x.2 _ _
        (by rw [hJ.1]; exact (index_of_label _ h0 h4).2.2)
        (fun a => weight_fill a.m_btag x.1 x.2)
    simp only [JetPerfHists.fillAll, hfill, Res.bind]
    refine ⟨e1, ?_⟩
    rw [e2, hsum]
    simp
    ring

/-- C8. With the flavours numbered by distinct integers of `[0, 4)`: the
fill of a jet with such a label and a finite `pt >= 0` returns, and changes
exactly the aggregator at the index of the label, whose all-momenta hub
(and hub of one bin `i`) receives the jet with its weight; for a batch of
such jets the total weight in the four all-momenta hubs grows by the sum of
the weights of the batch, starting from 0 for a fresh router. -/
theorem fill_conserves_weight (fc : FlavorCode) (J : JetPerfHists) (hfc : fc.Valid)
    (hJ : J.WellFormed) :
    (∀ jet w q, jet.truth_label ∈ [fc.B, fc.C, fc.U, fc.T] → jet.pt = .fin q → 0 ≤ q →
      ∃ i, i < 12 ∧ J.fill jet w =
        .ok ⟨modifyAt (fun a => a.filledAt i jet w) jet.truth_label.toNat J.m_flavors⟩) ∧
    (∀ batch : List (Jet × ℚ),
      (∀ x ∈ batch, x.1.truth_label ∈ [fc.B, fc.C, fc.U, fc.T] ∧
        ∃ q, x.1.pt = .fin q ∧ 0 ≤ q) →
      (J.fillAll batch).error = none ∧
      (J.fillAll batch).state.allWeight = J.allWeight + (batch.map Prod.snd).sum) ∧
    JetPerfHists.new.allWeight = 0 := by
  refine ⟨?_, ?_, by simp [JetPerfHists.allWeight, JetPerfHists.new, FlavoredHists.new,
    BtagHists.weight, BtagHists.new]⟩
  · intro jet w q hl hpt hq
    obtain ⟨h0, h4⟩ := label_in_range fc hfc _ hl
    obtain ⟨i, lo, hi, hi12, hlo, hhi, h1, h2⟩ := bin_exists q hq
    have hub : upper_bound edgeTable jet.pt = some (hi, i) := by
      rw [hpt]; exact entry_of_bin i lo hi hi12 hlo hhi (.fin q) h1 h2
    exact ⟨i, hi12, router_fill_entry J hJ jet w h0 h4 hi i hi12 hub⟩
  · intro batch hb
    exact fillAll_weight batch J hJ
      (fun x hx => ⟨label_in_range fc hfc _ (hb x hx).1, (hb x hx).2⟩)

theorem fill_conserves_weight_witness :
    (∀ jet w q, jet.truth_label ∈ [sampleCode.B, sampleCode.C, sampleCode.U, sampleCode.T] →
      jet.pt = .fin q → 0 ≤ q →
      ∃ i, i < 12 ∧ JetPerfHists.new.fill jet w =
        .ok ⟨modifyAt (fun a => a.filledAt i jet w) jet.truth_label.toNat
          JetPerfHists.new.m_flavors⟩) ∧
    (∀ batch : List (Jet × ℚ),
      (∀ x ∈ batch, x.1.truth_label ∈ [sampleCode.B, sampleCode.C, sampleCode.U, sampleCode.T] ∧
        ∃ q, x.1.pt = .fin q ∧ 0 ≤ q) →
      (JetPerfHists.new.fillAll batch).error = none ∧
      (JetPerfHists.new.fillAll batch).state.allWeight =
        JetPerfHists.new.allWeight + (batch.map Prod.snd).sum) ∧
    JetPerfHists.new.allWeight = 0 :=
  fill_conserves_weight sampleCode JetPerfHists.new (by decide) router_new_wellFormed

/-- C9. A jet whose truth label has an integer value outside `[0, 4)`: the
bounds-checked access of `JetPerfHists::fill` raises `out_of_range` and the
router is left exactly as it was, no histogram having been filled. -/
theorem unknown_flavor_raises (J : JetPerfHists) (jet : Jet) (w : ℚ)
    (hlen : J.m_flavors.length = 4)
    (hl : static_cast_int jet.truth_label < 0 ∨ 4 ≤ static_cast_int jet.truth_label) :
    J.fill jet w = .thrown .out_of_range J ∧ (J.fill jet w).error = some .out_of_range ∧
    (J.fill jet w).state = J := by
  have hidx := index_out_of_range jet.truth_label hl
  have hnone : J.m_flavors[toSizeT (static_cast_int jet.truth_label)]? = none := by
    rw [List.getElem?_eq_none_iff, hlen]
    exact hidx
  have hfill : J.fill jet w = .thrown .out_of_range J := by
    simp only [JetPerfHists.fill, hnone]
  rw [hfill]
  exact ⟨rfl, rfl, rfl⟩

theorem unknown_flavor_raises_witness :
    JetPerfHists.new.fill (sampleJet (-1) (.fin 25000)) 1 =
      .thrown .out_of_range JetPerfHists.new ∧
    (JetPerfHists.new.fill (sampleJet (-1) (.fin 25000)) 1).error = some .out_of_range ∧
    (JetPerfHists.new.fill (sampleJet (-1) (.fin 25000)) 1).state = JetPerfHists.new :=
  unknown_flavor_raises JetPerfHists.new (sampleJet (-1) (.fin 25000)) 1 (by decide)
    (Or.inl (by decide))

/-- C10. With the flavours numbered by distinct integers of `[0, 4)`:
`JetPerfHists::writeTo` returns and creates exactly the four groups "B",
"C", "U", "T" in this order; the group named after a flavour holds what the
aggregator at the index of that flavour writes, and it is to this
aggregator that `JetPerfHists::fill` hands the jets carrying that label. -/
theorem writeTo_flavor_groups (fc : FlavorCode) (J : JetPerfHists) (hfc : fc.Valid)
    (hJ : J.WellFormed) :
    (J.writeTo fc []).error = none ∧
    Group.names (J.written fc) = ["B", "C", "U", "T"] ∧
    ∀ name code, (name, code) ∈ [("B", fc.B), ("C", fc.C), ("U", fc.U), ("T", fc.T)] →
      flavorString fc code = .ok name ∧
      ∃ agg, J.m_flavors[code.toNat]? = some agg ∧
        (agg.writeTo []).error = none ∧
        Group.find (J.written fc) [name] = some (.group agg.written) ∧
        ∀ jet w, jet.truth_label = code →
          J.fill jet w = (agg.fill jet w).map fun a => ⟨J.m_flavors.set code.toNat a⟩ := by
  obtain ⟨aB, aC, aU, aT, hB, hC, hU, hT, wB, wC, wU, wT⟩ := router_aggregators fc hfc J hJ
  have hw := router_writeTo fc hfc J aB aC aU aT hB hC hU hT wB wC wU wT
  obtain ⟨nB, nC, nU, nT⟩ := flavorString_valid fc hfc
  obtain ⟨⟨b0, b4⟩, ⟨c0, c4⟩, ⟨u0, u4⟩, ⟨t0, t4⟩, _⟩ := hfc
  unfold JetPerfHists.written
  rw [hw]
  refine ⟨rfl, rfl, ?_⟩
  intro name code hmem
  simp only [List.mem_cons, Prod.mk.injEq, List.mem_singleton, List.not_mem_nil,
    or_false] at hmem
  rcases hmem with ⟨h1, h2⟩ | ⟨h1, h2⟩ | ⟨h1, h2⟩ | ⟨h1, h2⟩ <;> subst h1 <;> subst h2
  · exact ⟨nB, aB, hB, by rw [agg_written aB wB]; rfl, rfl,
      fun jet w hl => router_fill_delegates J jet w _ b0 b4 aB hB hl⟩
  · exact ⟨nC, aC, hC, by rw [agg_written aC wC]; rfl, rfl,
      fun jet w hl => router_fill_delegates J jet w _ c0 c4 aC hC hl⟩
  · exact ⟨nU, aU, hU, by rw [agg_written aU wU]; rfl, rfl,
      fun jet w hl => router_fill_delegates J jet w _ u0 u4 aU hU hl⟩
  · exact ⟨nT, aT, hT, by rw [agg_written aT wT]; rfl, rfl,
      fun jet w hl => router_fill_delegates J jet w _ t0 t4 aT hT hl⟩

theorem writeTo_flavor_groups_witness :
    (JetPerfHists.new.writeTo sampleCode []).error = none ∧
    Group.names (JetPerfHists.new.written sampleCode) = ["B", "C", "U", "T"] ∧
    ∀ name code, (name, code) ∈ [("B", sampleCode.B), ("C", sampleCode.C),
        ("U", sampleCode.U), ("T", sampleCode.T)] →
      flavorString sampleCode code = .ok name ∧
      ∃ agg, JetPerfHists.new.m_flavors[code.toNat]? = some agg ∧
        (agg.writeTo []).error = none ∧
        Group.find (JetPerfHists.new.written sampleCode) [name] = some (.group agg.written) ∧
        ∀ jet w, jet.truth_label = code →
          JetPerfHists.new.fill jet w =
            (agg.fill jet w).map fun a => ⟨JetPerfHists.new.m_flavors.set code.toNat a⟩ :=
  writeTo_flavor_groups sampleCode JetPerfHists.new (by decide) router_new_wellFormed

/-! ## The end-to-end scenario -/

theorem scenario_run (fc : FlavorCode) (hfc : fc.Valid) (jA jB : Jet)
    (hA : jA.truth_label = fc.B) (hpA : jA.pt = .fin 25000)
    (hB : jB.truth_label = fc.U) (hpB : jB.pt = .fin 500000) :
    (JetPerfHists.new.fill jA 1).error = none ∧
    ((JetPerfHists.new.fill jA 1).state.fill jB 2).error = none ∧
    (JetPerfHists.writeTo fc ((JetPerfHists.new.fill jA 1).state.fill jB 2).state []).error =
      none ∧
    scenarioStore fc jA jB =
      [("B", .group (FlavoredHists.new.filledAt 1 jA 1).written),
       ("C", .group FlavoredHists.new.written),
       ("U", .group (FlavoredHists.new.filledAt 10 jB 2).written),
       ("T", .group FlavoredHists.new.written)] := by
  obtain ⟨⟨b0, b4⟩, ⟨c0, c4⟩, ⟨u0, u4⟩, ⟨t0, t4⟩, hbc, hbu, hbt, hcu, hct, hut⟩ := id hfc
  have hubA : upper_bound edgeTable jA.pt = some (.fin 30000, 1) := by
    rw [hpA, upper_bound_table]; norm_num
  have hubB : upper_bound edgeTable jB.pt = some (.fin 600000, 10) := by
    rw [hpB, upper_bound_table]; norm_num
  have f1 := router_fill_entry JetPerfHists.new router_new_wellFormed jA 1
    (by rw [hA]; exact b0) (by rw [hA]; exact b4) _ 1 (by norm_num) hubA
  have w1 := router_fill_wellFormed JetPerfHists.new router_new_wellFormed jA 1 1
    jA.truth_label.toNat
  have f2 := router_fill_entry _ w1 jB 2 (by rw [hB]; exact u0) (by rw [hB]; exact u4) _ 10
    (by norm_num) hubB
  rw [hA] at f1 f2
  rw [hB] at f2
  have nb := router_new_get fc.B.toNat (by omega)
  have nc := router_new_get fc.C.toNat (by omega)
  have nu := router_new_get fc.U.toNat (by omega)
  have nt := router_new_get fc.T.toNat (by omega)
  have gB : (modifyAt (fun a => a.filledAt 10 jB 2) fc.U.toNat
      (modifyAt (fun a => a.filledAt 1 jA 1) fc.B.toNat JetPerfHists.new.m_flavors))[fc.B.toNat]? =
      some (FlavoredHists.new.filledAt 1 jA 1) := by
    rw [getElem_modifyAt_other _ _ _ _ (by omega)]
    exact getElem_modifyAt_same _ _ _ _ nb
  have gC : (modifyAt (fun a => a.filledAt 10 jB 2) fc.U.toNat
      (modifyAt (fun a => a.filledAt 1 jA 1) fc.B.toNat JetPerfHists.new.m_flavors))[fc.C.toNat]? =
      some FlavoredHists.new := by
    rw [getElem_modifyAt_other _ _ _ _ (by omega), getElem_modifyAt_other _ _ _ _ (by omega)]
    exact nc
  have gU : (modifyAt (fun a => a.filledAt 10 jB 2) fc.U.toNat
      (modifyAt (fun a => a.filledAt 1 jA 1) fc.B.toNat JetPerfHists.new.m_flavors))[fc.U.toNat]? =
      some (FlavoredHists.new.filledAt 10 jB 2) := by
    apply getElem_modifyAt_same
    rw [getElem_modifyAt_other _ _ _ _ (by omega)]
    exact nu
  have gT : (modifyAt (fun a => a.filledAt 10 jB 2) fc.U.toNat
      (modifyAt (fun a => a.filledAt 1 jA 1) fc.B.toNat JetPerfHists.new.m_flavors))[fc.T.toNat]? =
      some FlavoredHists.new := by
    rw [getElem_modifyAt_other _ _ _ _ (by omega), getElem_modifyAt_other _ _ _ _ (by omega)]
    exact nt
  have hw := router_writeTo fc hfc
    ⟨modifyAt (fun a => a.filledAt 10 jB 2) fc.U.toNat
      (modifyAt (fun a => a.filledAt 1 jA 1) fc.B.toNat JetPerfHists.new.m_flavors)⟩
    _ _ _ _ gB gC gU gT (filledAt_wellFormed _ new_wellFormed 1 jA 1) new_wellFormed
    (filledAt_wellFormed _ new_wellFormed 10 jB 2) new_wellFormed
  unfold scenarioStore JetPerfHists.written
  rw [f1]
  simp only [Res.state]
  rw [f2]
  simp only [Res.state]
  rw [hw]
  exact ⟨rfl, rfl, rfl, rfl⟩

theorem store_find_B (aB aC aU aT : FlavoredHists) (hwf : aB.WellFormed) (p : String)
    (ps : List String) :
    Group.find [("B", .group aB.written), ("C", .group aC.written), ("U", .group aU.written),
        ("T", .group aT.written)] ("B" :: "btag" :: p :: ps) =
      Group.find [("all", .group aB.m_btag.datasets),
        ("ptBins", .group (List.zip binNames (aB.m_pt_btag.map fun b => Node.group b.datasets)))]
        (p :: ps) := by
  have hc : Group.child [("B", Node.group aB.written), ("C", .group aC.written),
      ("U", .group aU.written), ("T", .group aT.written)] "B" =
      some (.group aB.written) := rfl
  simp only [Group.find, hc]
  rw [written_wellFormed aB hwf]
  rfl

theorem store_find_U (aB aC aU aT : FlavoredHists) (hwf : aU.WellFormed) (p : String)
    (ps : List String) :
    Group.find [("B", .group aB.written), ("C", .group aC.written), ("U", .group aU.written),
        ("T", .group aT.written)] ("U" :: "btag" :: p :: ps) =
      Group.find [("all", .group aU.m_btag.datasets),
        ("ptBins", .group (List.zip binNames (aU.m_pt_btag.map fun b => Node.group b.datasets)))]
        (p :: ps) := by
  have hc : Group.child [("B", Node.group aB.written), ("C", .group aC.written),
      ("U", .group aU.written), ("T", .group aT.written)] "U" =
      some (.group aU.written) := rfl
  simp only [Group.find, hc]
  rw [written_wellFormed aU hwf]
  rfl

/-- C3, counterexample. The scenario with the numbering `B = 0, U = 2`:
under `/B/btag/ptBins` there is no group "NONE-30" (the groups are "0-20"
... "600-INF") and jet A is in "20-30"; under `/U/btag/ptBins` the `mv1`
histogram of "600-INF" received nothing and jet B is in "200-600". -/
theorem scenario_groups_are_not_NONE_30_and_600_INF :
    Group.find (scenarioStore sampleCode (scenarioJetA 0) (scenarioJetB 2))
      ["B", "btag", "ptBins", "NONE-30"] = none ∧
    Group.namesAt (scenarioStore sampleCode (scenarioJetA 0) (scenarioJetB 2))
      ["B", "btag", "ptBins"] = ["0-20", "20-30", "30-40", "40-50", "50-60", "60-75", "75-90",
        "90-110", "110-150", "150-200", "200-600", "600-INF"] ∧
    Group.find (scenarioStore sampleCode (scenarioJetA 0) (scenarioJetB 2))
      ["B", "btag", "ptBins", "20-30", "mv1"] =
        some (.dataset ⟨.unit, [(.val (.fin (9 / 10)), 1)]⟩) ∧
    Group.find (scenarioStore sampleCode (scenarioJetA 0) (scenarioJetB 2))
      ["U", "btag", "ptBins", "600-INF", "mv1"] = some (.dataset ⟨.unit, []⟩) ∧
    Group.find (scenarioStore sampleCode (scenarioJetA 0) (scenarioJetB 2))
      ["U", "btag", "ptBins", "200-600", "mv1"] =
        some (.dataset ⟨.unit, [(.val (.fin (2 / 10)), 2)]⟩) := by
  obtain ⟨_, _, _, hs⟩ := scenario_run sampleCode (by decide) (scenarioJetA 0) (scenarioJetB 2)
    rfl rfl rfl rfl
  have wA := filledAt_wellFormed _ new_wellFormed 1 (scenarioJetA 0) 1
  have wB := filledAt_wellFormed _ new_wellFormed 10 (scenarioJetB 2) 2
  rw [hs]
  refine ⟨?_, ?_, ?_, ?_, ?_⟩
  · rw [store_find_B _ _ _ _ wA]; rfl
  · simp only [Group.namesAt]
    rw [store_find_B _ _ _ _ wA]; rfl
  · rw [store_find_B _ _ _ _ wA]; rfl
  · rw [store_find_U _ _ _ _ wB]; rfl
  · rw [store_find_U _ _ _ _ wB]; rfl

/-- C3, amended. With the flavours numbered by distinct integers of
`[0, 4)`, after the fill of jet A (label B, `pt = 25000`, weight 1), the
fill of jet B (label U, `pt = 500000`, weight 2) and one `writeTo`, all
three calls return; the hub under `/B/btag/ptBins/20-30` is the one that
received jet A with weight 1 and the hub under `/U/btag/ptBins/200-600` the
one that received jet B with weight 2, and `/B/btag/all`, `/U/btag/all` hold
the same single fills. -/
theorem scenario_groups (fc : FlavorCode) (jA jB : Jet) (hfc : fc.Valid)
    (hA : jA.truth_label = fc.B) (hpA : jA.pt = .fin 25000)
    (hB : jB.truth_label = fc.U) (hpB : jB.pt = .fin 500000) :
    (JetPerfHists.new.fill jA 1).error = none ∧
    ((JetPerfHists.new.fill jA 1).state.fill jB 2).error = none ∧
    (JetPerfHists.writeTo fc ((JetPerfHists.new.fill jA 1).state.fill jB 2).state []).error =
      none ∧
    Group.find (scenarioStore fc jA jB) ["B", "btag", "ptBins", "20-30"] =
      some (.group (BtagHists.new.fill jA 1).datasets) ∧
    Group.find (scenarioStore fc jA jB) ["U", "btag", "ptBins", "200-600"] =
      some (.group (BtagHists.new.fill jB 2).datasets) ∧
    Group.find (scenarioStore fc jA jB) ["B", "btag", "all"] =
      some (.group (BtagHists.new.fill jA 1).datasets) ∧
    Group.find (scenarioStore fc jA jB) ["U", "btag", "all"] =
      some (.group (BtagHists.new.fill jB 2).datasets) ∧
    Group.find (scenarioStore fc jA jB) ["B", "btag", "ptBins", "20-30", "mv1"] =
      some (.dataset ⟨.unit, [(.val jA.mv1, 1)]⟩) ∧
    Group.find (scenarioStore fc jA jB) ["U", "btag", "ptBins", "200-600", "mv1"] =
      some (.dataset ⟨.unit, [(.val jB.mv1, 2)]⟩) := by
  obtain ⟨e1, e2, e3, hs⟩ := scenario_run fc hfc jA jB hA hpA hB hpB
  have wA := filledAt_wellFormed _ new_wellFormed 1 jA 1
  have wB := filledAt_wellFormed _ new_wellFormed 10 jB 2
  rw [hs]
  refine ⟨e1, e2, e3, ?_, ?_, ?_, ?_, ?_, ?_⟩
  · rw [store_find_B _ _ _ _ wA]; rfl
  · rw [store_find_U _ _ _ _ wB]; rfl
  · rw [store_find_B _ _ _ _ wA]; rfl
  · rw [store_find_U _ _ _ _ wB]; rfl
  · rw [store_find_B _ _ _ _ wA]; rfl
  · rw [store_find_U _ _ _ _ wB]; rfl

theorem scenario_groups_witness :
    (JetPerfHists.new.fill (scenarioJetA 0) 1).error = none ∧
    ((JetPerfHists.new.fill (scenarioJetA 0) 1).state.fill (scenarioJetB 2) 2).error = none ∧
    (JetPerfHists.writeTo sampleCode
      ((JetPerfHists.new.fill (scenarioJetA 0) 1).state.fill (scenarioJetB 2) 2).state
      []).error = none ∧
    Group.find (scenarioStore sampleCode (scenarioJetA 0) (scenarioJetB 2))
      ["B", "btag", "ptBins", "20-30"] =
      some (.group (BtagHists.new.fill (scenarioJetA 0) 1).datasets) ∧
    Group.find (scenarioStore sampleCode (scenarioJetA 0) (scenarioJetB 2))
      ["U", "btag", "ptBins", "200-600"] =
      some (.group (BtagHists.new.fill (scenarioJetB 2) 2).datasets) ∧
    Group.find (scenarioStore sampleCode (scenarioJetA 0) (scenarioJetB 2))
      ["B", "btag", "all"] = some (.group (BtagHists.new.fill (scenarioJetA 0) 1).datasets) ∧
    Group.find (scenarioStore sampleCode (scenarioJetA 0) (scenarioJetB 2))
      ["U", "btag", "all"] = some (.group (BtagHists.new.fill (scenarioJetB 2) 2).datasets) ∧
    Group.find (scenarioStore sampleCode (scenarioJetA 0) (scenarioJetB 2))
      ["B", "btag", "ptBins", "20-30", "mv1"] =
      some (.dataset ⟨.unit, [(.val (scenarioJetA 0).mv1, 1)]⟩) ∧
    Group.find (scenarioStore sampleCode (scenarioJetA 0) (scenarioJetB 2))
      ["U", "btag", "ptBins", "200-600", "mv1"] =
      some (.dataset ⟨.unit, [(.val (scenarioJetB 2).mv1, 2)]⟩) :=
  scenario_groups sampleCode (scenarioJetA 0) (scenarioJetB 2) (by decide) rfl rfl rfl rfl

/-! ## The discriminant hub -/

/-- C11. `BtagHists::writeTo` into an empty group returns and writes exactly
the seven names mv1, gaiaAntiU, gaiaAntiC, gaiaGr1, mv2c00, mv2c10, mv2c20,
each holding its own member histogram; after a call of `fill` the histogram
under each name is the former one with one more entry, the matching value
with the given weight: mv1 the score `jet.mv1`, gaiaAntiU `log(pb / pu)`,
gaiaAntiC `log(pb / pc)`, gaiaGr1 `log(pb / sqrt(pc * pu))`, and the three
mv2 scores under their names. -/
theorem hub_datasets_match_fills (b : BtagHists) (jet : Jet) (w : ℚ) :
    (b.writeTo []).error = none ∧
    Group.names (b.writeTo []).state = ["mv1", "gaiaAntiU", "gaiaAntiC", "gaiaGr1", "mv2c00",
      "mv2c10", "mv2c20"] ∧
    (Group.dataset (b.writeTo []).state "mv1" = some b.m_mv1 ∧
     Group.dataset (b.writeTo []).state "gaiaAntiU" = some b.m_gaia_anti_light ∧
     Group.dataset (b.writeTo []).state "gaiaAntiC" = some b.m_gaia_anti_charm ∧
     Group.dataset (b.writeTo []).state "gaiaGr1" = some b.m_gaia_gr1 ∧
     Group.dataset (b.writeTo []).state "mv2c00" = some b.m_mv2c00 ∧
     Group.dataset (b.writeTo []).state "mv2c10" = some b.m_mv2c10 ∧
     Group.dataset (b.writeTo []).state "mv2c20" = some b.m_mv2c20) ∧
    (Group.dataset ((b.fill jet w).writeTo []).state "mv1" =
       some ⟨b.m_mv1.range, b.m_mv1.fills ++ [(.val jet.mv1, w)]⟩ ∧
     Group.dataset ((b.fill jet w).writeTo []).state "gaiaAntiU" =
       some ⟨b.m_gaia_anti_light.range, b.m_gaia_anti_light.fills ++
         [(.log (.div (.val jet.gaia.pb) (.val jet.gaia.pu)), w)]⟩ ∧
     Group.dataset ((b.fill jet w).writeTo []).state "gaiaAntiC" =
       some ⟨b.m_gaia_anti_charm.range, b.m_gaia_anti_charm.fills ++
         [(.log (.div (.val jet.gaia.pb) (.val jet.gaia.pc)), w)]⟩ ∧
     Group.dataset ((b.fill jet w).writeTo []).state "gaiaGr1" =
       some ⟨b.m_gaia_gr1.range, b.m_gaia_gr1.fills ++
         [(.log (.div (.val jet.gaia.pb)
           (.sqrt (.mul (.val jet.gaia.pc) (.val jet.gaia.pu)))), w)]⟩ ∧
     Group.dataset ((b.fill jet w).writeTo []).state "mv2c00" =
       some ⟨b.m_mv2c00.range, b.m_mv2c00.fills ++ [(.val jet.mv2c00, w)]⟩ ∧
     Group.dataset ((b.fill jet w).writeTo []).state "mv2c10" =
       some ⟨b.m_mv2c10.range, b.m_mv2c10.fills ++ [(.val jet.mv2c10, w)]⟩ ∧
     Group.dataset ((b.fill jet w).writeTo []).state "mv2c20" =
       some ⟨b.m_mv2c20.range, b.m_mv2c20.fills ++ [(.val jet.mv2c20, w)]⟩) := by
  rw [hub_written b, hub_written (b.fill jet w)]
  exact ⟨rfl, rfl, ⟨rfl, rfl, rfl, rfl, rfl, rfl, rfl⟩, ⟨rfl, rfl, rfl, rfl, rfl, rfl, rfl⟩⟩

/-! ## Edge labels -/

/-- C14. `binString` labels a finite edge by truncating the stored value to
an `int`, dividing by 1000 with integer division and printing the quotient
in decimal, and labels an infinite edge "INF" without conversion; for every
finite edge `g` of the table, stored as `g * 1000`, the label is the decimal
string of `g`: "0", "20", ..., "600". -/
theorem binString_labels :
    (∀ q : ℚ, -2 ^ 31 ≤ Int.tdiv q.num q.den → Int.tdiv q.num q.den < 2 ^ 31 →
      binString (.fin q) = some (toString (Int.tdiv (Int.tdiv q.num q.den) 1000))) ∧
    binString .posInf = some "INF" ∧ binString .negInf = some "INF" ∧
    pt_bins_gev = (finite_edges_gev.map fun g => Dbl.fin (g : ℚ)) ++ [.posInf] ∧
    (∀ g ∈ finite_edges_gev, binString (Dbl.mul1e3 (.fin (g : ℚ))) = some (toString g)) ∧
    edges.filterMap binString =
      ["0", "20", "30", "40", "50", "60", "75", "90", "110", "150", "200", "600", "INF"] := by
  refine ⟨?_, rfl, rfl, ?_, ?_, ?_⟩
  · intro q h1 h2
    have h : -2 ^ 31 ≤ Int.tdiv q.num q.den ∧ Int.tdiv q.num q.den < 2 ^ 31 := ⟨h1, h2⟩
    simp only [binString, Dbl.isinf, Dbl.toInt?, if_pos h, Option.map_some']
    rfl
  · simp [pt_bins_gev, finite_edges_gev]
  · intro g hg
    simp only [finite_edges_gev, List.mem_cons, List.mem_singleton, List.not_mem_nil,
      or_false] at hg
    rcases hg with h | h | h | h | h | h | h | h | h | h | h | h <;> subst h <;>
      norm_num [Dbl.mul1e3] <;> decide
  · rw [edges_eq]; decide

theorem binString_labels_witness :
    (-2 ^ 31 ≤ Int.tdiv (75000 : ℚ).num (75000 : ℚ).den ∧
      Int.tdiv (75000 : ℚ).num (75000 : ℚ).den < 2 ^ 31) ∧
    binString (.fin 75000) =
      some (toString (Int.tdiv (Int.tdiv (75000 : ℚ).num (75000 : ℚ).den) 1000)) ∧
    toString (Int.tdiv (Int.tdiv (75000 : ℚ).num (75000 : ℚ).den) 1000) = "75" :=
  ⟨by decide, binString_labels.1 75000 (by decide) (by decide), by decide⟩

/-! ## Momenta outside the table -/

theorem upper_bound_posInf : upper_bound edgeTable .posInf = none := by
  simp [upper_bound, edgeTable, find_step, Dbl.lt]

theorem upper_bound_negInf :
    upper_bound edgeTable .negInf = some (.fin 0, 18446744073709551615) := by
  simp [upper_bound, edgeTable, find_step, Dbl.lt]

theorem wrapped_index : toSizeT (-1) = 18446744073709551615 := by decide

/-- C17. When the lookup of `fill` finds no edge the jet is added with its
weight to the all-momenta hub, the per-bin hubs are left as they were and
the call returns; this is what happens for `pt = +infinity`, no table edge
being strictly greater. -/
theorem no_edge_found_fills_all_only (h : FlavoredHists) (jet : Jet) (w : ℚ)
    (hwf : h.WellFormed) (hpt : jet.pt = .posInf) :
    (∀ (g : FlavoredHists) (j : Jet) (v : ℚ), upper_bound g.m_pt_bins j.pt = none →
      g.fill j v = .ok (g.filledAll j v)) ∧
    upper_bound h.m_pt_bins jet.pt = none ∧
    h.fill jet w = .ok (h.filledAll jet w) ∧
    (h.fill jet w).error = none ∧
    (h.fill jet w).state.m_btag = h.m_btag.fill jet w ∧
    (h.fill jet w).state.m_pt_btag = h.m_pt_btag := by
  have htab : h.m_pt_bins = edgeTable := hwf.1.trans new_table
  have hub : upper_bound edgeTable jet.pt = none := by rw [hpt]; exact upper_bound_posInf
  have hf := fill_of_end h hwf jet w hub
  refine ⟨?_, by rw [htab]; exact hub, hf, by rw [hf]; rfl, by rw [hf]; rfl, by rw [hf]; rfl⟩
  intro g j v hg
  simp only [FlavoredHists.fill, hg, FlavoredHists.filledAll]

theorem no_edge_found_fills_all_only_witness :
    (∀ (g : FlavoredHists) (j : Jet) (v : ℚ), upper_bound g.m_pt_bins j.pt = none →
      g.fill j v = .ok (g.filledAll j v)) ∧
    upper_bound FlavoredHists.new.m_pt_bins (sampleJet 0 .posInf).pt = none ∧
    FlavoredHists.new.fill (sampleJet 0 .posInf) 1 =
      .ok (FlavoredHists.new.filledAll (sampleJet 0 .posInf) 1) ∧
    (FlavoredHists.new.fill (sampleJet 0 .posInf) 1).error = none ∧
    (FlavoredHists.new.fill (sampleJet 0 .posInf) 1).state.m_btag =
      FlavoredHists.new.m_btag.fill (sampleJet 0 .posInf) 1 ∧
    (FlavoredHists.new.fill (sampleJet 0 .posInf) 1).state.m_pt_btag =
      FlavoredHists.new.m_pt_btag :=
  no_edge_found_fills_all_only FlavoredHists.new (sampleJet 0 .posInf) 1 new_wellFormed rfl

/-- C18. For a jet with `pt < 0`, finite or `-infinity`, the lookup of `fill`
selects the entry of edge 0, whose stored index is the wrapped `-1`; the
bounds-checked hub access raises `out_of_range`, and it does so after the
all-momenta hub was filled: the call fails and leaves the aggregator
changed. -/
theorem negative_pt_fails_after_all_hub (h : FlavoredHists) (jet : Jet) (w : ℚ)
    (hwf : h.WellFormed) (hneg : jet.pt.lt (.fin 0) = true) :
    (jet.pt = .negInf ∨ ∃ q : ℚ, q < 0 ∧ jet.pt = .fin q) ∧
    upper_bound h.m_pt_bins jet.pt = some (.fin 0, toSizeT (-1)) ∧
    toSizeT (-1) = 2 ^ 64 - 1 ∧
    h.m_pt_btag[toSizeT (-1)]? = none ∧
    h.fill jet w = .thrown .out_of_range (h.filledAll jet w) ∧
    (h.fill jet w).state.m_btag = h.m_btag.fill jet w ∧
    (h.fill jet w).state.m_pt_btag = h.m_pt_btag ∧
    (h.fill jet w).state ≠ h := by
  have htab : h.m_pt_bins = edgeTable := hwf.1.trans new_table
  have hcase : jet.pt = .negInf ∨ ∃ q : ℚ, q < 0 ∧ jet.pt = .fin q := by
    cases hp : jet.pt with
    | nan => rw [hp] at hneg; simp [Dbl.lt] at hneg
    | negInf => exact Or.inl rfl
    | fin q =>
      rw [hp] at hneg
      simp only [lt_fin_fin, decide_eq_true_eq] at hneg
      exact Or.inr ⟨q, hneg, rfl⟩
    | posInf => rw [hp] at hneg; simp [Dbl.lt] at hneg
  have hub : upper_bound edgeTable jet.pt = some (.fin 0, 18446744073709551615) := by
    rcases hcase with hp | ⟨q, hq, hp⟩
    · rw [hp]; exact upper_bound_negInf
    · rw [hp, upper_bound_table, if_pos hq]
  have hf := fill_of_wrapped h hwf jet w _ hub
  rw [hf, htab, wrapped_index]
  refine ⟨hcase, hub, by norm_num, by simp [hwf.2], rfl, rfl, rfl, ?_⟩
  intro e
  have hlen := congrArg (fun s : FlavoredHists => s.m_btag.m_mv1.fills.length) e
  simp [Res.state, FlavoredHists.filledAll, BtagHists.fill, Histogram.fill] at hlen

theorem negative_pt_fails_after_all_hub_witness :
    ((sampleJet 0 .negInf).pt = .negInf ∨ ∃ q : ℚ, q < 0 ∧ (sampleJet 0 .negInf).pt = .fin q) ∧
    upper_bound FlavoredHists.new.m_pt_bins (sampleJet 0 .negInf).pt =
      some (.fin 0, toSizeT (-1)) ∧
    toSizeT (-1) = 2 ^ 64 - 1 ∧
    FlavoredHists.new.m_pt_btag[toSizeT (-1)]? = none ∧
    FlavoredHists.new.fill (sampleJet 0 .negInf) 1 =
      .thrown .out_of_range (FlavoredHists.new.filledAll (sampleJet 0 .negInf) 1) ∧
    (FlavoredHists.new.fill (sampleJet 0 .negInf) 1).state.m_btag =
      FlavoredHists.new.m_btag.fill (sampleJet 0 .negInf) 1 ∧
    (FlavoredHists.new.fill (sampleJet 0 .negInf) 1).state.m_pt_btag =
      FlavoredHists.new.m_pt_btag ∧
    (FlavoredHists.new.fill (sampleJet 0 .negInf) 1).state ≠ FlavoredHists.new :=
  negative_pt_fails_after_all_hub FlavoredHists.new (sampleJet 0 .negInf) 1 new_wellFormed rfl

/-! ## Weight in the momentum bins -/

theorem fillAll_bins (batch : List (Jet × ℚ)) (h : FlavoredHists) (hwf : h.WellFormed)
    (hb : ∀ x ∈ batch, ∃ q, x.1.pt = .fin q ∧ 0 ≤ q) :
    (h.fillAll batch).error = none ∧
      (h.fillAll batch).state.binWeight = h.binWeight + (batch.map Prod.snd).sum ∧
      (h.fillAll batch).state.m_btag.weight = h.m_btag.weight + (batch.map Prod.snd).sum := by
  induction batch generalizing h with
  | nil => simp [FlavoredHists.fillAll, Res.error, Res.state]
  | cons x xs ih =>
    obtain ⟨q, hpt, hq⟩ := hb x (by simp)
    obtain ⟨i, lo, hi, hi12, hlo, hhi, h1, h2⟩ := bin_exists q hq
    have hub : upper_bound edgeTable x.1.pt = some (hi, i) := by
      rw [hpt]; exact entry_of_bin i lo hi hi12 hlo hhi (.fin q) h1 h2
    have hfill := fill_of_entry h hwf x.1 x.2 hi i hi12 hub
    obtain ⟨e1, e2, e3⟩ := ih _ (filledAt_wellFormed h hwf i x.1 x.2)
      (fun y hy => hb y (by simp [hy]))
    have hbin : (h.filledAt i x.1 x.2).binWeight = h.binWeight + x.2 :=
      sum_modifyAt _ _ x.2 _ _ (by rw [hwf.2]; exact hi12) (fun b => weight_fill b x.1 x.2)
    have hall : (h.filledAt i x.1 x.2).m_btag.weight = h.m_btag.weight + x.2 :=
      weight_fill h.m_btag x.1 x.2
    simp only [FlavoredHists.fillAll, hfill, Res.bind]
    refine ⟨e1, ?_, ?_⟩
    · rw [e2, hbin]; simp; ring
    · rw [e3, hall]; simp; ring

/-- C19. For an aggregator filled with jets of finite `pt >= 0`: each call
returns and adds the jet to exactly one of the twelve per-bin hubs, the
other eleven being left as they were; over a sequence of such calls the
total weight of the per-bin hubs and the weight of the all-momenta hub grow
by the same amount, the sum of the weights, so that on a freshly
constructed aggregator the two totals are equal. -/
theorem bins_partition_weight (h : FlavoredHists) (hwf : h.WellFormed) :
    (∀ jet w q, jet.pt = .fin q → 0 ≤ q → ∃ i, i < 12 ∧
      h.fill jet w = .ok (h.filledAt i jet w) ∧
      (h.filledAt i jet w).m_pt_btag.length = 12 ∧
      (h.filledAt i jet w).m_pt_btag[i]? = (h.m_pt_btag[i]?).map (fun b => b.fill jet w) ∧
      ∀ j, j ≠ i → (h.filledAt i jet w).m_pt_btag[j]? = h.m_pt_btag[j]?) ∧
    (∀ batch : List (Jet × ℚ), (∀ x ∈ batch, ∃ q, x.1.pt = .fin q ∧ 0 ≤ q) →
      (h.fillAll batch).error = none ∧
      (h.fillAll batch).state.binWeight = h.binWeight + (batch.map Prod.snd).sum ∧
      (h.fillAll batch).state.m_btag.weight = h.m_btag.weight + (batch.map Prod.snd).sum) ∧
    (∀ batch : List (Jet × ℚ), (∀ x ∈ batch, ∃ q, x.1.pt = .fin q ∧ 0 ≤ q) →
      (FlavoredHists.new.fillAll batch).state.binWeight =
        (FlavoredHists.new.fillAll batch).state.m_btag.weight) := by
  refine ⟨?_, fun batch hb => fillAll_bins batch h hwf hb, ?_⟩
  · intro jet w q hpt hq
    obtain ⟨i, lo, hi, hi12, hlo, hhi, h1, h2⟩ := bin_exists q hq
    have hub : upper_bound edgeTable jet.pt = some (hi, i) := by
      rw [hpt]; exact entry_of_bin i lo hi hi12 hlo hhi (.fin q) h1 h2
    obtain ⟨b, hb, _⟩ := getElem_of_lt h.m_pt_btag i (by rw [hwf.2]; exact hi12)
    refine ⟨i, hi12, fill_of_entry h hwf jet w hi i hi12 hub,
      (filledAt_wellFormed h hwf i jet w).2, ?_, ?_⟩
    · rw [hb]
      exact getElem_modifyAt_same _ _ _ _ hb
    · intro j hj
      exact getElem_modifyAt_other _ _ _ _ hj
  · intro batch hb
    obtain ⟨_, e2, e3⟩ := fillAll_bins batch FlavoredHists.new new_wellFormed hb
    rw [e2, e3]
    simp [FlavoredHists.binWeight, FlavoredHists.new, BtagHists.weight, BtagHists.new]

theorem bins_partition_weight_witness :
    (∀ jet w q, jet.pt = .fin q → 0 ≤ q → ∃ i, i < 12 ∧
      FlavoredHists.new.fill jet w = .ok (FlavoredHists.new.filledAt i jet w) ∧
      (FlavoredHists.new.filledAt i jet w).m_pt_btag.length = 12 ∧
      (FlavoredHists.new.filledAt i jet w).m_pt_btag[i]? =
        (FlavoredHists.new.m_pt_btag[i]?).map (fun b => b.fill jet w) ∧
      ∀ j, j ≠ i → (FlavoredHists.new.filledAt i jet w).m_pt_btag[j]? =
        FlavoredHists.new.m_pt_btag[j]?) ∧
    (∀ batch : List (Jet × ℚ), (∀ x ∈ batch, ∃ q, x.1.pt = .fin q ∧ 0 ≤ q) →
      (FlavoredHists.new.fillAll batch).error = none ∧
      (FlavoredHists.new.fillAll batch).state.binWeight =
        FlavoredHists.new.binWeight + (batch.map Prod.snd).sum ∧
      (FlavoredHists.new.fillAll batch).state.m_btag.weight =
        FlavoredHists.new.m_btag.weight + (batch.map Prod.snd).sum) ∧
    (∀ batch : List (Jet × ℚ), (∀ x ∈ batch, ∃ q, x.1.pt = .fin q ∧ 0 ≤ q) →
      (FlavoredHists.new.fillAll batch).state.binWeight =
        (FlavoredHists.new.fillAll batch).state.m_btag.weight) :=
  bins_partition_weight FlavoredHists.new new_wellFormed

/-! ## The guard of `FlavoredHists::writeTo` -/

/-- C20. In `writeTo` the guard compares the index of an entry with the size
13 of the edge table, not with the number 12 of hubs; even so every index
that passes is below 12, the entry of edge 0 with its wrapped index is
skipped, and the entries that pass carry the indices 0 to 11 in this order:
the call returns, the bounds-checked access never raising, and the groups
"0-20", ..., "600-INF" hold the hubs 0 to 11, each written once. -/
theorem writeTo_guard_admits_hub_indices (h : FlavoredHists) (hwf : h.WellFormed) :
    h.m_pt_bins.length = 13 ∧ h.m_pt_btag.length = 12 ∧
    h.m_pt_bins.head? = some (.fin 0, toSizeT (-1)) ∧
    h.guard (.fin 0, toSizeT (-1)) = false ∧
    (∀ e ∈ h.m_pt_bins, h.guard e = true → e.2 < 12) ∧
    (h.m_pt_bins.filter h.guard).map Prod.snd = [0, 1, 2, 3, 4, 5, 6, 7, 8, 9, 10, 11] ∧
    (h.writeTo []).error = none ∧
    Group.find h.written ["btag", "ptBins"] = some (.group (List.zip
      ["0-20", "20-30", "30-40", "40-50", "50-60", "60-75", "75-90", "90-110", "110-150",
        "150-200", "200-600", "600-INF"]
      (h.m_pt_btag.map fun b => Node.group b.datasets))) := by
  have htab : h.m_pt_bins = edgeTable := hwf.1.trans new_table
  have hg : h.guard = fun e : Dbl × Nat => decide (0 ≤ e.2) && decide (e.2 < 13) := by
    funext e
    simp only [FlavoredHists.guard, htab]
    rfl
  rw [hg, htab, wrapped_index, written_wellFormed h hwf, writeTo_wellFormed h hwf]
  refine ⟨rfl, hwf.2, rfl, by decide, ?_, by decide, rfl, rfl⟩
  intro e he
  simp only [edgeTable, List.mem_cons, List.mem_singleton, List.not_mem_nil, or_false] at he
  rcases he with h | h | h | h | h | h | h | h | h | h | h | h | h <;> subst h <;> simp

theorem writeTo_guard_admits_hub_indices_witness :
    FlavoredHists.new.m_pt_bins.length = 13 ∧ FlavoredHists.new.m_pt_btag.length = 12 ∧
    FlavoredHists.new.m_pt_bins.head? = some (.fin 0, toSizeT (-1)) ∧
    FlavoredHists.new.guard (.fin 0, toSizeT (-1)) = false ∧
    (∀ e ∈ FlavoredHists.new.m_pt_bins, FlavoredHists.new.guard e = true → e.2 < 12) ∧
    (FlavoredHists.new.m_pt_bins.filter FlavoredHists.new.guard).map Prod.snd =
      [0, 1, 2, 3, 4, 5, 6, 7, 8, 9, 10, 11] ∧
    (FlavoredHists.new.writeTo []).error = none ∧
    Group.find FlavoredHists.new.written ["btag", "ptBins"] = some (.group (List.zip
      ["0-20", "20-30", "30-40", "40-50", "50-60", "60-75", "75-90", "90-110", "110-150",
        "150-200", "200-600", "600-INF"]
      (FlavoredHists.new.m_pt_btag.map fun b => Node.group b.datasets))) :=
  writeTo_guard_admits_hub_indices FlavoredHists.new new_wellFormed

/-! ## Names of siblings -/

theorem datasets_distinct (b : BtagHists) :
    Node.distinctNames (.group b.datasets) = true := rfl

theorem written_distinct (g : FlavoredHists) (hwf : g.WellFormed) :
    Node.distinctNames (.group g.written) = true := by
  obtain ⟨b0, b1, b2, b3, b4, b5, b6, b7, b8, b9, b10, b11, hl⟩ := length_twelve _ hwf.2
  rw [written_wellFormed g hwf, hl]
  rfl

theorem distinct_of_four (a b c d : Group)
    (ha : Node.distinctNames (.group a) = true) (hb : Node.distinctNames (.group b) = true)
    (hc : Node.distinctNames (.group c) = true) (hd : Node.distinctNames (.group d) = true) :
    Node.distinctNames (.group [("B", .group a), ("C", .group b), ("U", .group c),
      ("T", .group d)]) = true := by
  have hn : decide (["B", "C", "U", "T"] : List String).Nodup = true := by decide
  simp only [Node.distinctNames, Group.distinctBelow, List.map, hn, Bool.true_and,
    Bool.and_true, Bool.and_eq_true] at ha hb hc hd ⊢
  exact ⟨ha, hb, hc, hd⟩

/-- C12. With the flavours numbered by distinct integers of `[0, 4)`, one
`JetPerfHists::writeTo` into an empty store returns, no creation being
refused for a name already present: in the tree it leaves no group has two
children of the same name. The flavour names "B", "C", "U", "T" are
pairwise distinct, so are "all" and "ptBins", the twelve names under
`ptBins` and the seven dataset names. -/
theorem sibling_names_distinct (fc : FlavorCode) (J : JetPerfHists) (hfc : fc.Valid)
    (hJ : J.WellFormed) :
    (J.writeTo fc []).error = none ∧
    Node.distinctNames (.group (J.written fc)) = true ∧
    Group.namesAt (J.written fc) [] = ["B", "C", "U", "T"] ∧
    (∀ f ∈ ["B", "C", "U", "T"],
      Group.namesAt (J.written fc) [f] = ["btag"] ∧
      Group.namesAt (J.written fc) [f, "btag"] = ["all", "ptBins"] ∧
      Group.namesAt (J.written fc) [f, "btag", "all"] = datasetNames ∧
      Group.namesAt (J.written fc) [f, "btag", "ptBins"] = binNames ∧
      ∀ n ∈ binNames, Group.namesAt (J.written fc) [f, "btag", "ptBins", n] = datasetNames) ∧
    (["B", "C", "U", "T"] : List String).Nodup ∧ (["all", "ptBins"] : List String).Nodup ∧
    binNames.Nodup ∧ datasetNames.Nodup := by
  obtain ⟨aB, aC, aU, aT, hB, hC, hU, hT, wB, wC, wU, wT⟩ := router_aggregators fc hfc J hJ
  have hw := router_writeTo fc hfc J aB aC aU aT hB hC hU hT wB wC wU wT
  unfold JetPerfHists.written
  rw [hw]
  refine ⟨rfl, distinct_of_four _ _ _ _ (written_distinct aB wB) (written_distinct aC wC)
    (written_distinct aU wU) (written_distinct aT wT), rfl, ?_, by decide, by decide,
    by decide, by decide⟩
  obtain ⟨b0, b1, b2, b3, b4, b5, b6, b7, b8, b9, b10, b11, lB⟩ := length_twelve _ wB.2
  obtain ⟨c0, c1, c2, c3, c4, c5, c6, c7, c8, c9, c10, c11, lC⟩ := length_twelve _ wC.2
  obtain ⟨u0, u1, u2, u3, u4, u5, u6, u7, u8, u9, u10, u11, lU⟩ := length_twelve _ wU.2
  obtain ⟨t0, t1, t2, t3, t4, t5, t6, t7, t8, t9, t10, t11, lT⟩ := length_twelve _ wT.2
  simp only [Res.state]
  rw [written_wellFormed aB wB, written_wellFormed aC wC, written_wellFormed aU wU,
    written_wellFormed aT wT, lB, lC, lU, lT]
  intro f hf
  simp only [List.mem_cons, List.mem_singleton, List.not_mem_nil, or_false] at hf
  rcases hf with h | h | h | h <;> subst h <;> refine ⟨rfl, rfl, rfl, rfl, ?_⟩ <;>
    intro n hn <;>
    simp only [binNames, List.mem_cons, List.mem_singleton, List.not_mem_nil, or_false] at hn <;>
    rcases hn with h | h | h | h | h | h | h | h | h | h | h | h <;> subst h <;> rfl

theorem sibling_names_distinct_witness :
    (JetPerfHists.new.writeTo sampleCode []).error = none ∧
    Node.distinctNames (.group (JetPerfHists.new.written sampleCode)) = true ∧
    Group.namesAt (JetPerfHists.new.written sampleCode) [] = ["B", "C", "U", "T"] ∧
    (∀ f ∈ ["B", "C", "U", "T"],
      Group.namesAt (JetPerfHists.new.written sampleCode) [f] = ["btag"] ∧
      Group.namesAt (JetPerfHists.new.written sampleCode) [f, "btag"] = ["all", "ptBins"] ∧
      Group.namesAt (JetPerfHists.new.written sampleCode) [f, "btag", "all"] = datasetNames ∧
      Group.namesAt (JetPerfHists.new.written sampleCode) [f, "btag", "ptBins"] = binNames ∧
      ∀ n ∈ binNames,
        Group.namesAt (JetPerfHists.new.written sampleCode) [f, "btag", "ptBins", n] =
          datasetNames) ∧
    (["B", "C", "U", "T"] : List String).Nodup ∧ (["all", "ptBins"] : List String).Nodup ∧
    binNames.Nodup ∧ datasetNames.Nodup :=
  sibling_names_distinct sampleCode JetPerfHists.new (by decide) router_new_wellFormed

/-- C13. With a store that refuses to create a child whose name exists among
its siblings: after a first `JetPerfHists::writeTo` into an empty store has
returned, a second call at the same location fails with the duplicate-name
error, raised by the creation of the first group "B", and the store is
left exactly as the first call wrote it. -/
theorem second_writeTo_is_refused (fc : FlavorCode) (J K : JetPerfHists) (hfc : fc.Valid)
    (hJ : J.WellFormed) :
    (J.writeTo fc []).error = none ∧
    K.writeTo fc (J.written fc) = .thrown (.duplicate_name "B") (J.written fc) ∧
    (K.writeTo fc (J.written fc)).error = some (.duplicate_name "B") ∧
    (K.writeTo fc (J.written fc)).state = J.written fc := by
  obtain ⟨aB, aC, aU, aT, hB, hC, hU, hT, wB, wC, wU, wT⟩ := router_aggregators fc hfc J hJ
  have hw := router_writeTo fc hfc J aB aC aU aT hB hC hU hT wB wC wU wT
  obtain ⟨nB, _, _, _⟩ := flavorString_valid fc hfc
  have hsecond : K.writeTo fc (J.written fc) =
      .thrown (.duplicate_name "B") (J.written fc) := by
    unfold JetPerfHists.written
    rw [hw]
    simp only [Res.state, JetPerfHists.writeTo, JetPerfHists.writeFlavors, nB,
      Group.createGroup]
    rfl
  rw [hsecond]
  exact ⟨by rw [hw]; rfl, rfl, rfl, rfl⟩

theorem second_writeTo_is_refused_witness :
    (JetPerfHists.new.writeTo sampleCode []).error = none ∧
    JetPerfHists.new.writeTo sampleCode (JetPerfHists.new.written sampleCode) =
      .thrown (.duplicate_name "B") (JetPerfHists.new.written sampleCode) ∧
    (JetPerfHists.new.writeTo sampleCode (JetPerfHists.new.written sampleCode)).error =
      some (.duplicate_name "B") ∧
    (JetPerfHists.new.writeTo sampleCode (JetPerfHists.new.written sampleCode)).state =
      JetPerfHists.new.written sampleCode :=
  second_writeTo_is_refused sampleCode JetPerfHists.new JetPerfHists.new (by decide)
    router_new_wellFormed

/-! ## The discriminants in double arithmetic -/

theorem toRes_pos (q : ℚ) (h : 0 < q) : Dbl.toRes (.fin q) = .exact (.fin false q) := by
  simp [Dbl.toRes, h.ne', not_lt.mpr h.le, abs_of_pos h]

theorem round_underflow (neg : Bool) (m : ℚ) (h : m ≤ F64.tiny) :
    F64.round neg m = .zero neg := by
  simp [F64.round, h]

theorem gr1_underflow (pb pc pu : ℚ) (hb : 0 < pb) (hc : 0 < pc) (hu : 0 < pu)
    (h : pc * pu ≤ F64.tiny) :
    (gr1 ⟨.fin pb, .fin pc, .fin pu⟩).eval = .exact (.inf false) := by
  simp only [gr1, FExpr.eval, toRes_pos pb hb, toRes_pos pc hc, toRes_pos pu hu, FRes.mul,
    F64.mul, bne_self_eq_false, round_underflow false _ h, FRes.sqrt, FRes.div, F64.div,
    FRes.log]

theorem gr1_exactReal (ρ : Dbl → ℝ) (tr : TagTriple) (hb : 0 < ρ tr.pb) (hc : 0 < ρ tr.pc)
    (hu : 0 < ρ tr.pu) :
    (gr1 tr).exactReal ρ =
      Real.log (ρ tr.pb) - Real.log (ρ tr.pc) / 2 - Real.log (ρ tr.pu) / 2 := by
  have hs : 0 < Real.sqrt (ρ tr.pc * ρ tr.pu) := Real.sqrt_pos.mpr (mul_pos hc hu)
  simp only [gr1, FExpr.exactReal]
  rw [Real.log_div hb.ne' hs.ne', Real.log_sqrt (mul_pos hc hu).le,
    Real.log_mul hc.ne' hu.ne']
  ring

/-- C16, counterexample. For the positive doubles `pb = 1`,
`pc = pu = 2 ^ (-565)` the product `pc * pu` underflows to zero and the
value `gr1` computes is `+infinity`: no double it may return is the real
number `ln(pb) - 0.5 * ln(pc) - 0.5 * ln(pu)`. -/
theorem gr1_underflow_is_not_the_formula :
    (Dbl.lt (.fin 0) underflowTriple.pb = true ∧ Dbl.lt (.fin 0) underflowTriple.pc = true ∧
      Dbl.lt (.fin 0) underflowTriple.pu = true) ∧
    (gr1 underflowTriple).eval = .exact (.inf false) ∧
    ¬ ∃ g : F64, (gr1 underflowTriple).eval.Admits g ∧
      F64.IsReal g (Real.log 1 - 0.5 * Real.log (1 / 2 ^ 565) - 0.5 * Real.log (1 / 2 ^ 565)) := by
  have hp : (0 : ℚ) < 1 / 2 ^ 565 := by positivity
  have hunder : (1 / 2 ^ 565 : ℚ) * (1 / 2 ^ 565) ≤ F64.tiny := by
    norm_num [F64.tiny]
  have hg : (gr1 underflowTriple).eval = .exact (.inf false) :=
    gr1_underflow 1 _ _ one_pos hp hp hunder
  refine ⟨⟨?_, ?_, ?_⟩, hg, ?_⟩
  · norm_num [underflowTriple, lt_fin_fin]
  · norm_num [underflowTriple, lt_fin_fin]
  · norm_num [underflowTriple, lt_fin_fin]
  · rintro ⟨g, ag, hreal⟩
    rw [hg] at ag
    simp only [FRes.Admits] at ag
    rw [ag] at hreal
    exact hreal

/-- C16, amended. In exact real arithmetic, for all positive real `p_b`,
`p_c`, `p_u` the formula `gr1` evaluates, `ln(p_b / sqrt(p_c * p_u))`, equals
`ln(p_b) - 0.5 * ln(p_c) - 0.5 * ln(p_u)`. The double `gr1` returns need not
be this value: for positive doubles whose product `p_c * p_u` underflows to
zero, that is `p_c * p_u <= 2 ^ (-1075)`, it is `+infinity`. -/
theorem gr1_exact_formula (ρ : Dbl → ℝ) (tr : TagTriple) (hb : 0 < ρ tr.pb)
    (hc : 0 < ρ tr.pc) (hu : 0 < ρ tr.pu) :
    (gr1 tr).exactReal ρ = Real.log (ρ tr.pb / Real.sqrt (ρ tr.pc * ρ tr.pu)) ∧
    (gr1 tr).exactReal ρ =
      Real.log (ρ tr.pb) - 0.5 * Real.log (ρ tr.pc) - 0.5 * Real.log (ρ tr.pu) ∧
    (∀ pb pc pu : ℚ, 0 < pb → 0 < pc → 0 < pu → pc * pu ≤ 1 / 2 ^ 1075 →
      (gr1 ⟨.fin pb, .fin pc, .fin pu⟩).eval = .exact (.inf false)) := by
  refine ⟨rfl, ?_, fun pb pc pu h1 h2 h3 h4 => gr1_underflow pb pc pu h1 h2 h3 h4⟩
  rw [gr1_exactReal ρ tr hb hc hu]
  ring

theorem gr1_exact_formula_witness :
    (gr1 ⟨.fin (8 / 10), .fin (1 / 10), .fin (1 / 10)⟩).exactReal Dbl.toReal =
      Real.log (Dbl.toReal (.fin (8 / 10)) /
        Real.sqrt (Dbl.toReal (.fin (1 / 10)) * Dbl.toReal (.fin (1 / 10)))) ∧
    (gr1 ⟨.fin (8 / 10), .fin (1 / 10), .fin (1 / 10)⟩).exactReal Dbl.toReal =
      Real.log (Dbl.toReal (.fin (8 / 10))) - 0.5 * Real.log (Dbl.toReal (.fin (1 / 10))) -
        0.5 * Real.log (Dbl.toReal (.fin (1 / 10))) ∧
    (∀ pb pc pu : ℚ, 0 < pb → 0 < pc → 0 < pu → pc * pu ≤ 1 / 2 ^ 1075 →
      (gr1 ⟨.fin pb, .fin pc, .fin pu⟩).eval = .exact (.inf false)) :=
  gr1_exact_formula Dbl.toReal ⟨.fin (8 / 10), .fin (1 / 10), .fin (1 / 10)⟩
    (by norm_num [Dbl.toReal]) (by norm_num [Dbl.toReal]) (by norm_num [Dbl.toReal])

end JetPerf
